import Mathlib

/-!
Verification of the natural-language-to-Cypher translation core of the
Intelligent Career Guidance System (`ai_service.py`).

The development shallowly embeds the three pure components of the core:

* the Entity Extractor (`extract_entities`),
* the Template Query Synthesizer (`intelligent_fallback`),
* the Response Sanitizer (`_clean_cypher_response` with `_fix_cypher_scoping`).

Strings are modelled as `List Char`; Python string operations
(`lower`, `strip`, `split('\n')`, `replace`, substring tests, `startswith`)
are given executable models below.  Python `re` patterns used by the source
are embedded as explicit backtracking matchers with the leftmost-match,
greedy-with-backtracking, first-alternative-first semantics of `re.search`.
Python floats are modelled as exact decimals (a rational value plus the
string `str()` would print); this is faithful for every number the
threshold regex can produce at the magnitudes exercised here.
-/

set_option maxRecDepth 65536

namespace CareerGuidance

/-- Shorthand turning a Lean string literal into the `List Char` the model works on. -/
def S (s : String) : List Char := s.data

/-- Newline character used by the line-splitting model of Python `str.split('\n')`. -/
def nlc : Char := Char.ofNat 10

/-- Forward slash, used for the `//` comment-marker test. -/
def slashc : Char := Char.ofNat 47

/-- Semicolon, used by the sanitizer's `rstrip(';')`. -/
def semic : Char := Char.ofNat 59

/-- Apostrophe character (ASCII 39). -/
def apoc : Char := Char.ofNat 39

/-- ASCII lowercasing of one character, the model of Python `str.lower` per char. -/
def lowerChar (c : Char) : Char :=
  if 'A' ≤ c ∧ c ≤ 'Z' then Char.ofNat (c.toNat + 32) else c

/-- ASCII lowercasing of a string (Python `str.lower()` restricted to ASCII input). -/
def lowerL (s : List Char) : List Char := s.map lowerChar

/-- Whitespace test used by Python `str.strip()` and the regex class `\s` (ASCII part). -/
def isWsC (c : Char) : Bool :=
  c = ' ' || c = Char.ofNat 9 || c = nlc || c = Char.ofNat 13 ||
  c = Char.ofNat 11 || c = Char.ofNat 12

/-- Digit test, the regex class `\d` (ASCII). -/
def isDigitC (c : Char) : Bool := '0' ≤ c && c ≤ '9'

/-- Uppercase-letter test, the regex class `[A-Z]`. -/
def isUpperC (c : Char) : Bool := 'A' ≤ c && c ≤ 'Z'

/-- Lowercase-letter test, the regex class `[a-z]`. -/
def isLowerC (c : Char) : Bool := 'a' ≤ c && c ≤ 'z'

/-- Boolean prefix test on character lists. -/
def isPrefixB : List Char → List Char → Bool
  | [], _ => true
  | _ :: _, [] => false
  | a :: as, b :: bs => a = b && isPrefixB as bs

/-- Boolean substring test: `containsB hay pat` models Python `pat in hay`. -/
def containsB (hay pat : List Char) : Bool :=
  isPrefixB pat hay ||
    (match hay with
     | [] => false
     | _ :: t => containsB t pat)

/-- Left strip of characters satisfying `p`. -/
def lstripP (p : Char → Bool) (s : List Char) : List Char := s.dropWhile p

/-- Right strip of characters satisfying `p`. -/
def rstripP (p : Char → Bool) (s : List Char) : List Char :=
  (s.reverse.dropWhile p).reverse

/-- Python `str.strip()` (whitespace on both ends). -/
def stripL (s : List Char) : List Char := rstripP isWsC (lstripP isWsC s)

/-- Python `str.rstrip(';')`. -/
def rstripSemi (s : List Char) : List Char := rstripP (fun c => c = semic) s

/-- Python `str.split('\n')`: splits at every newline and keeps empty pieces,
so the result is always nonempty. -/
def splitNl : List Char → List (List Char)
  | [] => [[]]
  | c :: t =>
    if c = nlc then [] :: splitNl t
    else
      match splitNl t with
      | [] => [[c]]
      | h :: r => (c :: h) :: r

/-- Python `'\n'.join(...)`. -/
def joinNl : List (List Char) → List Char
  | [] => []
  | [l] => l
  | l :: ls => l ++ nlc :: joinNl ls

/-- Fuelled worker for `replaceAll`; the fuel only forces structural recursion and
is irrelevant as soon as it dominates the length of the string (see
`replaceAllF_fuel`). -/
def replaceAllF (pat repl : List Char) : Nat → List Char → List Char
  | 0, s => s
  | _ + 1, [] => []
  | fuel + 1, c :: t =>
    if pat ≠ [] ∧ isPrefixB pat (c :: t) then
      repl ++ replaceAllF pat repl fuel ((c :: t).drop pat.length)
    else
      c :: replaceAllF pat repl fuel t

/-- Model of Python `str.replace(pat, repl)` for a nonempty `pat`: replaces every
occurrence, scanning left to right without rescanning the replacement text. -/
def replaceAll (pat repl s : List Char) : List Char :=
  replaceAllF pat repl s.length s

/-- First result of an option-producing function over a list, the model of
"first pattern that matches wins". -/
def firstSome : List α → (α → Option β) → Option β
  | [], _ => none
  | a :: as, f =>
    match f a with
    | some b => some b
    | none => firstSome as f

/-! ### Regex machinery for the student-name patterns

Each of the seven `student_patterns` of `extract_entities` has the shape
`PRE ([A-Z][a-z]+(?:\s+[A-Z][a-z]+)*) SUF`.  The candidate lists below
enumerate the ways each greedy sub-pattern can match, longest first, which is
exactly the backtracking priority order of Python `re`; a pattern matches at a
position when the first candidate (in that order) whose remainder satisfies
the suffix sub-pattern exists. -/

/-- Candidates for `[A-Z][a-z]+` at the head of the input: capture and
remainder, longest capture first. -/
def wordCands : List Char → List (List Char × List Char)
  | [] => []
  | c :: t =>
    if isUpperC c then
      let run := t.takeWhile isLowerC
      (List.range run.length).map (fun i =>
        let k := run.length - i
        (c :: run.take k, t.drop k))
    else []

/-- Candidates for `\s+` at the head of the input (at least one character),
longest first. -/
def wsCands (s : List Char) : List (List Char × List Char) :=
  let run := s.takeWhile isWsC
  (List.range run.length).map (fun i =>
    let k := run.length - i
    (run.take k, s.drop k))

/-- Candidates for `(?:\s+[A-Z][a-z]+)*`, most iterations first (the `fuel`
argument only forces structural recursion; every iteration consumes at least
two characters, so `s.length` is always enough fuel). -/
def starCands : Nat → List Char → List (List Char × List Char)
  | 0, s => [([], s)]
  | fuel + 1, s =>
    ((wsCands s).flatMap (fun p =>
      (wordCands p.2).flatMap (fun q =>
        (starCands fuel q.2).map (fun r => (p.1 ++ q.1 ++ r.1, r.2))))) ++
    [([], s)]

/-- Candidates for the whole capture group
`[A-Z][a-z]+(?:\s+[A-Z][a-z]+)*`, in backtracking priority order. -/
def nameCands (s : List Char) : List (List Char × List Char) :=
  (wordCands s).flatMap (fun p =>
    (starCands p.2.length p.2).map (fun r => (p.1 ++ r.1, r.2)))

/-- Test for a suffix sub-pattern `\s+LIT` at the head of the input. -/
def wsLit (lit : List Char) (s : List Char) : Bool :=
  (wsCands s).any (fun p => isPrefixB lit p.2)

/-- Pattern 1 of `student_patterns`: `for\s+([A-Z][a-z]+(?:\s+[A-Z][a-z]+)*)`. -/
def p1At (cs : List Char) : Option (List Char) :=
  if isPrefixB (S ("for")) cs then
    firstSome (wsCands (cs.drop 3)) (fun p =>
      match nameCands p.2 with
      | [] => none
      | q :: _ => some q.1)
  else none

/-- Pattern 2: `to\s+([A-Z][a-z]+(?:\s+[A-Z][a-z]+)*)\s+to`. -/
def p2At (cs : List Char) : Option (List Char) :=
  if isPrefixB (S ("to")) cs then
    firstSome (wsCands (cs.drop 2)) (fun p =>
      firstSome (nameCands p.2) (fun q =>
        if wsLit (S ("to")) q.2 then some q.1 else none))
  else none

/-- Pattern 3: a name sequence followed by the character class `[\'s]`
(an apostrophe or a letter `s`). -/
def p3At (cs : List Char) : Option (List Char) :=
  firstSome (nameCands cs) (fun q =>
    match q.2 with
    | c :: _ => if c = apoc || c = 's' then some q.1 else none
    | [] => none)

/-- Pattern 4: `student\s+([A-Z][a-z]+(?:\s+[A-Z][a-z]+)*)`. -/
def p4At (cs : List Char) : Option (List Char) :=
  if isPrefixB (S ("student")) cs then
    firstSome (wsCands (cs.drop 7)) (fun p =>
      match nameCands p.2 with
      | [] => none
      | q :: _ => some q.1)
  else none

/-- Pattern 5: `of\s+([A-Z][a-z]+(?:\s+[A-Z][a-z]+)*)`. -/
def p5At (cs : List Char) : Option (List Char) :=
  if isPrefixB (S ("of")) cs then
    firstSome (wsCands (cs.drop 2)) (fun p =>
      match nameCands p.2 with
      | [] => none
      | q :: _ => some q.1)
  else none

/-- Pattern 6: `does\s+([A-Z][a-z]+(?:\s+[A-Z][a-z]+)*)\s+have`. -/
def p6At (cs : List Char) : Option (List Char) :=
  if isPrefixB (S ("does")) cs then
    firstSome (wsCands (cs.drop 4)) (fun p =>
      firstSome (nameCands p.2) (fun q =>
        if wsLit (S ("have")) q.2 then some q.1 else none))
  else none

/-- Pattern 7: `skills for\s+([A-Z][a-z]+(?:\s+[A-Z][a-z]+)*)`. -/
def p7At (cs : List Char) : Option (List Char) :=
  if isPrefixB (S ("skills for")) cs then
    firstSome (wsCands (cs.drop 10)) (fun p =>
      match nameCands p.2 with
      | [] => none
      | q :: _ => some q.1)
  else none

/-- Model of `re.search`: scan start positions left to right and return the
first position where the pattern matches. -/
def searchO (pAt : List Char → Option β) : List Char → Option β
  | [] => none
  | c :: t =>
    match pAt (c :: t) with
    | some r => some r
    | none => searchO pAt t

/-- Ordered list of the seven name patterns, as in `student_patterns`. -/
def studentPatterns : List (List Char → Option (List Char)) :=
  [p1At, p2At, p3At, p4At, p5At, p6At, p7At]

/-- Student-name extraction stage of `extract_entities`: the first pattern in
`student_patterns` that matches anywhere in the original-case utterance wins,
and its capture is lowercased. -/
def extract_student_name (query : List Char) : Option (List Char) :=
  (firstSome studentPatterns (fun pAt => searchO pAt query)).map lowerL

/-! ### Query-type classification and the remaining extraction stages -/

/-- The five query types assignable by `extract_entities`. -/
inductive QueryType
  | retrieval
  | matching
  | recommendation
  | gap_analysis
  | aggregation
deriving DecidableEq

/-- Query-type classification cascade of `extract_entities` (lines 321-330 of
`ai_service.py`), on the lowercased utterance; first matching branch wins. -/
def classifyQueryType (ql : List Char) : QueryType :=
  if containsB ql (S ("recommend")) || containsB ql (S ("suggest")) then
    QueryType.recommendation
  else if containsB ql (S ("missing skill")) || containsB ql (S ("skill gap")) ||
      (containsB ql (S ("missing")) && containsB ql (S ("skill"))) then
    QueryType.gap_analysis
  else if containsB ql (S ("qualify")) || containsB ql (S ("eligible")) ||
      containsB ql (S ("match")) then
    QueryType.matching
  else if containsB ql (S ("count")) || containsB ql (S ("average")) ||
      containsB ql (S ("sum")) || containsB ql (S ("how many")) then
    QueryType.aggregation
  else
    QueryType.retrieval

/-- The fixed ordered company list of `extract_entities`. -/
def companies : List (List Char) :=
  [S ("google"), S ("amazon"), S ("microsoft"), S ("meta"), S ("apple"),
   S ("netflix"), S ("facebook"), S ("ibm"), S ("oracle"), S ("salesforce"),
   S ("tesla"), S ("uber")]

/-- The ordered role-category table of `extract_entities` (insertion order of
the Python dict `roles`). -/
def roleTable : List (List Char × List (List Char)) :=
  [(S ("software"),
    [S ("software"), S ("engineer"), S ("developer"), S ("swe"),
     S ("backend"), S ("frontend"), S ("full stack")]),
   (S ("ml"),
    [S ("ml"), S ("machine learning"), S ("ai"), S ("artificial intelligence")]),
   (S ("data"),
    [S ("data scientist"), S ("data analyst"), S ("data engineer")]),
   (S ("cloud"),
    [S ("cloud"), S ("devops"), S ("infrastructure")])]

/-- The fixed ordered skill vocabulary of `extract_entities`. -/
def commonSkills : List (List Char) :=
  [S ("python"), S ("java"), S ("javascript"), S ("react"), S ("sql"),
   S ("machine learning"), S ("deep learning"), S ("aws"), S ("docker"),
   S ("kubernetes"), S ("node"), S ("angular"), S ("vue"), S ("django"),
   S ("flask"), S ("spring"), S ("c++"), S ("c#"), S ("ruby")]

/-- Company extraction: first company of the fixed list contained in the
lowercased utterance. -/
def findCompany (ql : List Char) : Option (List Char) :=
  companies.find? (fun c => containsB ql c)

/-- Role extraction: first category of `roleTable` with any trigger substring
present in the lowercased utterance. -/
def findRole (ql : List Char) : Option (List Char) :=
  (roleTable.find? (fun p => p.2.any (fun k => containsB ql k))).map (fun p => p.1)

/-- Skill extraction: first known skill contained in the lowercased utterance. -/
def findSkill (ql : List Char) : Option (List Char) :=
  commonSkills.find? (fun c => containsB ql c)

/-! ### Threshold extraction and the Python float model -/

/-- Numeric value of a digit string. -/
def digitsToNat (ds : List Char) : Nat :=
  ds.foldl (fun a c => 10 * a + (c.toNat - 48)) 0

/-- Normalization dropping leading zeros of an integer digit string
(keeping a single zero). -/
def stripLeadZeros (ds : List Char) : List Char :=
  match ds.dropWhile (fun c => c = '0') with
  | [] => [('0' : Char)]
  | r => r

/-- Normalization dropping trailing zeros of a fractional digit string. -/
def stripTrailZeros (ds : List Char) : List Char :=
  (ds.reverse.dropWhile (fun c => c = '0')).reverse

/-- Model of a Python float produced by `float(...)` on a decimal literal:
the exact decimal (mantissa and fraction-digit count) together with the text
`str()` prints for it.  For the decimals the threshold regex can capture,
`str(float(d))` is the normalized decimal itself (with a forced `.0` when
integral), which is what `rep` holds. -/
structure PyFloat where
  mant : Nat
  scale : Nat
  rep : List Char
deriving DecidableEq

/-- Numeric value of a modelled Python float. -/
def PyFloat.val (t : PyFloat) : ℚ := (t.mant : ℚ) / (10 : ℚ) ^ t.scale

/-- Builds the `PyFloat` for integer digits `ip` and fraction digits `fp`. -/
def mkPyFloat (ip fp : List Char) : PyFloat :=
  { mant := digitsToNat (ip ++ fp)
  , scale := fp.length
  , rep :=
      let ipn := stripLeadZeros ip
      let fpn := stripTrailZeros fp
      if fpn = [] then ipn ++ S (".0") else ipn ++ [('.' : Char)] ++ fpn }

/-- A modelled float is numerically zero exactly when its mantissa is zero;
this lets the Python truthiness test `if threshold:` stay executable. -/
theorem PyFloat.val_eq_zero_iff (t : PyFloat) : t.val = 0 ↔ t.mant = 0 := by
  unfold PyFloat.val
  constructor
  · intro h
    have h10 : ((10 : ℚ) ^ t.scale) ≠ 0 := by positivity
    have := (div_eq_zero_iff.mp h).resolve_right h10
    exact_mod_cast this
  · intro h
    rw [h]
    simp

/-- Matches `\s*(\d+(?:\.\d+)?)` at the head of the input and parses the
captured number. -/
def numAt (r : List Char) : Option PyFloat :=
  let r1 := r.dropWhile isWsC
  let ds := r1.takeWhile isDigitC
  if ds = [] then none
  else
    match r1.drop ds.length with
    | c :: r3 =>
      if c = '.' then
        let fs := r3.takeWhile isDigitC
        if fs = [] then some (mkPyFloat ds []) else some (mkPyFloat ds fs)
      else some (mkPyFloat ds [])
    | [] => some (mkPyFloat ds [])

/-- Matches the threshold regex
`(?:>|above|greater than|more than)\s*(\d+(?:\.\d+)?)` at the head of the
input, trying the alternatives in their written order. -/
def thresholdAt (cs : List Char) : Option PyFloat :=
  firstSome [S (">"), S ("above"), S ("greater than"), S ("more than")]
    (fun lit => if isPrefixB lit cs then numAt (cs.drop lit.length) else none)

/-! ### The Intent Record and `extract_entities` -/

/-- The Intent Record: the `entities` dict built by `extract_entities`.  All
seven keys are always present; `course` is initialized to `None` and no
extraction rule assigns it. -/
structure IntentRecord where
  query_type : QueryType
  student_name : Option (List Char)
  company : Option (List Char)
  role_keywords : Option (List Char)
  skill : Option (List Char)
  course : Option (List Char)
  threshold : Option PyFloat
deriving DecidableEq

/-- The Entity Extractor, `AIService.extract_entities` (lines 306-383). -/
def extract_entities (query : List Char) : IntentRecord :=
  let ql := lowerL query
  { query_type := classifyQueryType ql
  , student_name := extract_student_name query
  , company := findCompany ql
  , role_keywords := findRole ql
  , skill := findSkill ql
  , course := none
  , threshold := searchO thresholdAt ql }

/-! ### The Template Query Synthesizer (`intelligent_fallback`)

Python truthiness drives the branch conditions: a string field is truthy when
present and nonempty, the threshold when present and numerically nonzero
(`0.0` is falsy in Python).  The template bodies are transcribed verbatim
from lines 481-600 of `ai_service.py`; literal braces are written with
`\x7b`/`\x7d` escapes. -/

/-- Python truthiness of an optional string field of the Intent Record. -/
def pyTruthyS : Option (List Char) → Bool
  | none => false
  | some s => !s.isEmpty

/-- Python truthiness of the optional threshold (a float: `0.0` is falsy;
by `PyFloat.val_eq_zero_iff` the mantissa test used here is exactly the
numeric test `threshold != 0.0`). -/
def pyTruthyF : Option PyFloat → Bool
  | none => false
  | some t => decide (t.mant ≠ 0)

/-- Value of an optional string field inside a branch whose condition
guarantees it is truthy. -/
def getS (o : Option (List Char)) : List Char := o.getD []

/-- Text interpolated for `{threshold}`.  The record always carries the
`threshold` key, so the `entities.get('threshold', 8)` default of the source
is unreachable; it is kept here (as the digit `8`) only to mirror the code. -/
def fmtT : Option PyFloat → List Char
  | some t => t.rep
  | none => S ("8")

/-- The `role_filter` fragment of the course-recommendation and gap-analysis
branches: appended only when a role keyword was extracted. -/
def roleFilterOf (r : Option (List Char)) : List Char :=
  if pyTruthyS r then S ("AND toLower(i.role) CONTAINS '") ++ (getS r ++ S ("'"))
  else []

/-- Branch 1 condition: `query_type == 'matching' and 'student' in q and company`. -/
def bMatching (q : List Char) (e : IntentRecord) : Bool :=
  decide (e.query_type = QueryType.matching) && containsB q (S ("student")) &&
    pyTruthyS e.company

/-- Branch 2 condition: `query_type == 'recommendation' and 'internship' in q and student`. -/
def bRecIntern (q : List Char) (e : IntentRecord) : Bool :=
  decide (e.query_type = QueryType.recommendation) && containsB q (S ("internship")) &&
    pyTruthyS e.student_name

/-- Branch 3 condition: `query_type == 'recommendation' and 'course' in q and student and company`. -/
def bRecCourse (q : List Char) (e : IntentRecord) : Bool :=
  decide (e.query_type = QueryType.recommendation) && containsB q (S ("course")) &&
    pyTruthyS e.student_name && pyTruthyS e.company

/-- Branch 4 condition: `query_type == 'gap_analysis' and student and company`. -/
def bGap (_q : List Char) (e : IntentRecord) : Bool :=
  decide (e.query_type = QueryType.gap_analysis) && pyTruthyS e.student_name &&
    pyTruthyS e.company

/-- Branch 5 condition: `skill and 'student' in q`. -/
def bSkillStudent (q : List Char) (e : IntentRecord) : Bool :=
  pyTruthyS e.skill && containsB q (S ("student"))

/-- Branch 6 condition: `student and 'skill' in q`. -/
def bStudentSkill (q : List Char) (e : IntentRecord) : Bool :=
  pyTruthyS e.student_name && containsB q (S ("skill"))

/-- Branch 7 condition: `skill and 'course' in q`. -/
def bSkillCourse (q : List Char) (e : IntentRecord) : Bool :=
  pyTruthyS e.skill && containsB q (S ("course"))

/-- Branch 8 condition: `query_type == 'aggregation' and 'major' in q`. -/
def bAggMajor (q : List Char) (e : IntentRecord) : Bool :=
  decide (e.query_type = QueryType.aggregation) && containsB q (S ("major"))

/-- Branch 9 condition: `query_type == 'aggregation' and 'gpa' in q`. -/
def bAggGpa (q : List Char) (e : IntentRecord) : Bool :=
  decide (e.query_type = QueryType.aggregation) && containsB q (S ("gpa"))

/-- Branch 1 template: students qualifying for a company's internships. -/
def tmplMatching (company : List Char) : List Char :=
  S ("MATCH (i:Internship)\nWHERE toLower(i.company) CONTAINS '") ++ (company ++
  S ("'\nMATCH (i)-[r:REQUIRES]->(req_skill:Skill)\nWITH i, collect(\x7bskill: req_skill, min_level: r.min_proficiency\x7d) as requirements\nMATCH (s:Student)\nOPTIONAL MATCH (s)-[has:HAS_SKILL]->(skill:Skill)\nWITH s, i, requirements, collect(\x7bskill: skill, level: has.proficiency\x7d) as student_skills\nWITH s, i, requirements, student_skills, [req IN requirements WHERE any(ss IN student_skills WHERE ss.skill = req.skill AND ss.level >= req.min_level)] as met_requirements\nWITH s, i, size(met_requirements) * 100.0 / size(requirements) as match_percent\nWHERE match_percent >= 70\nRETURN s.id AS Student_ID, s.name AS Name, s.major AS Major, s.gpa AS GPA, i.company AS Company, i.role AS Role, round(match_percent, 1) AS Match_Percent\nORDER BY Match_Percent DESC, s.gpa DESC\nLIMIT 20"))

/-- Branch 2 template: internship recommendations for a student. -/
def tmplRecIntern (student : List Char) : List Char :=
  S ("MATCH (s:Student)-[has:HAS_SKILL]->(skill:Skill)\nWHERE toLower(s.name) CONTAINS '") ++ (student ++
  S ("'\nWITH s, collect(\x7bskill: skill, level: has.proficiency\x7d) as student_skills\nMATCH (i:Internship)-[r:REQUIRES]->(req_skill:Skill)\nWITH s, i, student_skills, collect(\x7bskill: req_skill, min_level: r.min_proficiency\x7d) as requirements\nWITH s, i, requirements, student_skills, [req IN requirements WHERE any(ss IN student_skills WHERE ss.skill = req.skill AND ss.level >= req.min_level)] as met_requirements\nWITH i, size(met_requirements) * 100.0 / size(requirements) as match_percent\nWHERE match_percent >= 40\nRETURN i.company AS Company, i.role AS Role, i.location AS Location, round(match_percent, 1) AS Match_Percent\nORDER BY Match_Percent DESC\nLIMIT 10"))

/-- Branch 3 template: course recommendations toward an internship. -/
def tmplRecCourse (student company roleFilter : List Char) : List Char :=
  S ("MATCH (s:Student)\nWHERE toLower(s.name) CONTAINS '") ++ (student ++
  (S ("'\nMATCH (i:Internship)\nWHERE toLower(i.company) CONTAINS '") ++ (company ++
  (S ("' ") ++ (roleFilter ++
  S ("\nMATCH (i)-[r:REQUIRES]->(needed:Skill)\nOPTIONAL MATCH (s)-[has:HAS_SKILL]->(needed)\nWHERE has IS NULL OR has.proficiency < r.min_proficiency\nWITH s, needed, r.min_proficiency as required_level, COALESCE(has.proficiency, 0) as current_level\nMATCH (c:Course)-[:TEACHES]->(needed)\nWHERE NOT (s)-[:COMPLETED]->(c) AND NOT (s)-[:ENROLLED_IN]->(c)\nWITH c, collect(DISTINCT needed.name) as skills_taught, avg(required_level - current_level) as avg_gap\nRETURN DISTINCT c.name AS Course, c.code AS Code, c.credits AS Credits, skills_taught AS Skills_Taught, round(avg_gap, 1) AS Skill_Gap_Filled\nORDER BY Skill_Gap_Filled DESC\nLIMIT 10"))))))

/-- Branch 4 template: skill-gap analysis for a student and an internship. -/
def tmplGap (student company roleFilter : List Char) : List Char :=
  S ("MATCH (s:Student)\nWHERE toLower(s.name) CONTAINS '") ++ (student ++
  (S ("'\nMATCH (i:Internship)\nWHERE toLower(i.company) CONTAINS '") ++ (company ++
  (S ("' ") ++ (roleFilter ++
  S ("\nMATCH (i)-[r:REQUIRES]->(skill:Skill)\nOPTIONAL MATCH (s)-[has:HAS_SKILL]->(skill)\nWITH skill, r.min_proficiency as required, COALESCE(has.proficiency, 0) as current\nWHERE current < required\nRETURN skill.name AS Skill, skill.category AS Category, required AS Required_Level, current AS Current_Level, (required - current) AS Gap, CASE WHEN current = 0 THEN 'Missing' WHEN current < required THEN 'Weak' ELSE 'Sufficient' END AS Status\nORDER BY Gap DESC"))))))

/-- Branch 5 template, variant with the proficiency lower bound. -/
def tmplSkillBound (skill thrRep : List Char) : List Char :=
  S ("MATCH (s:Student)-[has:HAS_SKILL]->(sk:Skill)\nWHERE toLower(sk.name) CONTAINS '") ++ (skill ++
  (S ("' AND has.proficiency > ") ++ (thrRep ++
  S ("\nRETURN s.id AS ID, s.name AS Name, s.major AS Major, s.gpa AS GPA, has.proficiency AS Proficiency\nORDER BY has.proficiency DESC\nLIMIT 20"))))

/-- Branch 5 template, variant without the proficiency lower bound. -/
def tmplSkillNoBound (skill : List Char) : List Char :=
  S ("MATCH (s:Student)-[has:HAS_SKILL]->(sk:Skill)\nWHERE toLower(sk.name) CONTAINS '") ++ (skill ++
  S ("'\nRETURN s.id AS ID, s.name AS Name, s.major AS Major, s.gpa AS GPA, has.proficiency AS Proficiency\nORDER BY has.proficiency DESC\nLIMIT 20"))

/-- Branch 6 template: a named student's skills. -/
def tmplStudentSkills (student : List Char) : List Char :=
  S ("MATCH (s:Student)-[has:HAS_SKILL]->(sk:Skill)\nWHERE toLower(s.name) CONTAINS '") ++ (student ++
  S ("'\nRETURN sk.name AS Skill, sk.category AS Category, has.proficiency AS Proficiency\nORDER BY has.proficiency DESC"))

/-- Branch 7 template: courses teaching a skill. -/
def tmplCourseTeach (skill : List Char) : List Char :=
  S ("MATCH (c:Course)-[:TEACHES]->(sk:Skill)\nWHERE toLower(sk.name) CONTAINS '") ++ (skill ++
  S ("'\nRETURN c.name AS Course, c.code AS Code, c.credits AS Credits, c.difficulty AS Difficulty\nORDER BY c.name\nLIMIT 20"))

/-- Branch 8 template: count of students by major. -/
def tmplCountMajor : List Char :=
  S ("MATCH (s:Student)\nRETURN s.major AS Major, count(s) AS Student_Count\nORDER BY Student_Count DESC")

/-- Branch 9 template: average GPA by major. -/
def tmplAvgGpa : List Char :=
  S ("MATCH (s:Student)\nRETURN s.major AS Major, round(avg(s.gpa), 2) AS Average_GPA, count(s) AS Students\nORDER BY Average_GPA DESC")

/-- Branch 10 (default) template: list all students. -/
def tmplAllStudents : List Char :=
  S ("MATCH (s:Student)\nRETURN s.id AS ID, s.name AS Name, s.major AS Major, s.year AS Year, s.gpa AS GPA\nORDER BY s.name\nLIMIT 20")

/-- The Template Query Synthesizer, `AIService.intelligent_fallback`
(lines 481-600): a sequential decision list over the lowercased utterance and
the Intent Record, first matching branch wins, with the list-all-students
template as the guaranteed default. -/
def intelligent_fallback (query : List Char) (e : IntentRecord) : List Char :=
  if bMatching (lowerL query) e then tmplMatching (getS e.company)
  else if bRecIntern (lowerL query) e then tmplRecIntern (getS e.student_name)
  else if bRecCourse (lowerL query) e then
    tmplRecCourse (getS e.student_name) (getS e.company) (roleFilterOf e.role_keywords)
  else if bGap (lowerL query) e then
    tmplGap (getS e.student_name) (getS e.company) (roleFilterOf e.role_keywords)
  else if bSkillStudent (lowerL query) e then
    (if pyTruthyF e.threshold then tmplSkillBound (getS e.skill) (fmtT e.threshold)
     else tmplSkillNoBound (getS e.skill))
  else if bStudentSkill (lowerL query) e then tmplStudentSkills (getS e.student_name)
  else if bSkillCourse (lowerL query) e then tmplCourseTeach (getS e.skill)
  else if bAggMajor (lowerL query) e then tmplCountMajor
  else if bAggGpa (lowerL query) e then tmplAvgGpa
  else tmplAllStudents

/-! ### The Response Sanitizer

`_clean_cypher_response` (lines 448-479) removes markdown fences, truncates at
the first explanation-marker line, drops blank and `//`-comment lines, joins,
trims a trailing statement terminator, and applies the scoping fixes of
`_fix_cypher_scoping` (lines 437-446). -/

/-- The fixed explanation-marker list of `_clean_cypher_response`, matched
case-insensitively against each stripped line. -/
def markers : List (List Char) :=
  [S ("explanation:"), S ("note:"), S ("this query"), S ("the query"),
   S ("here's"), S ("i've"), S ("you can"), S ("* the"), S ("* `"),
   S ("however,")]

/-- Marker test of one stripped line. -/
def anyMarker (l : List Char) : Bool :=
  markers.any (fun m => containsB (lowerL l) m)

/-- Comment-marker prefix `//`. -/
def slashSlash : List Char := [slashc, slashc]

/-- Line filter of `_clean_cypher_response`: strips each line, stops at the
first marker line, and keeps the nonempty lines that do not start with `//`
(blank lines, leading or interior, are never kept). -/
def collectLines : List (List Char) → List (List Char)
  | [] => []
  | l :: ls =>
    let t := stripL l
    if anyMarker t then []
    else if !t.isEmpty && !isPrefixB slashSlash t then t :: collectLines ls
    else collectLines ls

/-- The markdown fence tokens removed first. -/
def fenceCy : List Char := S ("```cypher")

/-- The bare triple-backtick fence token. -/
def fence3 : List Char := S ("```")

/-- Fence-removal stage: `response.replace('```cypher', '').replace('```', '').strip()`. -/
def removeFences (s : List Char) : List Char :=
  stripL (replaceAll fence3 [] (replaceAll fenceCy [] s))

/-- Scoping-fix pattern 1: `ORDER BY avg_gap`. -/
def sc1pat : List Char := S ("ORDER BY avg_gap")

/-- Scoping-fix replacement 1: `ORDER BY Skill_Gap_Filled`. -/
def sc1rep : List Char := S ("ORDER BY Skill_Gap_Filled")

/-- Alias string whose presence triggers scoping fix 1. -/
def sc1alias : List Char := S ("as Skill_Gap_Filled")

/-- Scoping-fix pattern 2: `ORDER BY match_percent`. -/
def sc2pat : List Char := S ("ORDER BY match_percent")

/-- Scoping-fix replacement 2: `ORDER BY Match_Percent`. -/
def sc2rep : List Char := S ("ORDER BY Match_Percent")

/-- Alias string whose presence triggers scoping fix 2. -/
def sc2alias : List Char := S ("as Match_Percent")

/-- First rule of `_fix_cypher_scoping`: rewrite `ORDER BY avg_gap` to the
public alias when the aliased column is present. -/
def fixStep1 (cypher : List Char) : List Char :=
  if containsB cypher sc1pat && containsB cypher sc1alias then
    replaceAll sc1pat sc1rep cypher
  else cypher

/-- Second rule of `_fix_cypher_scoping`: rewrite `ORDER BY match_percent` to
the public alias when the aliased column is present. -/
def fixStep2 (cypher : List Char) : List Char :=
  if containsB cypher sc2pat && containsB cypher sc2alias then
    replaceAll sc2pat sc2rep cypher
  else cypher

/-- `AIService._fix_cypher_scoping` (lines 437-446): the two scoping rules in
sequence. -/
def fix_cypher_scoping (cypher : List Char) : List Char :=
  fixStep2 (fixStep1 cypher)

/-- The line-processing and joining core of `_clean_cypher_response`:
join the kept lines, strip, drop trailing semicolons, strip again. -/
def cleanCore (s : List Char) : List Char :=
  stripL (rstripSemi (stripL (joinNl (collectLines (splitNl (removeFences s))))))

/-- `AIService._clean_cypher_response` (lines 448-479), the Response
Sanitizer. -/
def clean_cypher_response (s : List Char) : List Char :=
  fix_cypher_scoping (cleanCore s)

/-! ## Claim C1 -/

/-- C1 counterexample: on the utterance
"Show skill gaps for Bob Smith for Amazon ML Engineer" the Entity Extractor
does NOT produce `role_keywords = "ml"` as the claim states: the utterance
contains the substring "engineer", which belongs to the `software` keyword
set tested before `ml`, so the first-match-wins role cascade yields
`software`. -/
theorem C1_counterexample :
    (extract_entities
      (S ("Show skill gaps for Bob Smith for Amazon ML Engineer"))).role_keywords ≠
      some (S ("ml")) := by
  decide

/-- C1 amended: on "Show skill gaps for Bob Smith for Amazon ML Engineer" the
Entity Extractor produces `student_name = "bob smith"`, `company = "amazon"`,
`query_type = gap_analysis` and `role_keywords = "software"` (not "ml": the
substring "engineer" matches the `software` category first), and branch 4 of
the Template Synthesizer fires with the role filter appended using that role
keyword `software`. -/
theorem C1_amended :
    extract_entities (S ("Show skill gaps for Bob Smith for Amazon ML Engineer")) =
      { query_type := QueryType.gap_analysis
      , student_name := some (S ("bob smith"))
      , company := some (S ("amazon"))
      , role_keywords := some (S ("software"))
      , skill := none
      , course := none
      , threshold := none } ∧
    intelligent_fallback (S ("Show skill gaps for Bob Smith for Amazon ML Engineer"))
        (extract_entities (S ("Show skill gaps for Bob Smith for Amazon ML Engineer"))) =
      tmplGap (S ("bob smith")) (S ("amazon"))
        (S ("AND toLower(i.role) CONTAINS 'software'")) := by
  constructor
  · decide
  · decide

/-! ## Claim C8 -/

/-- C8: on "Students with Python proficiency above 8" the Entity Extractor
produces `skill = "python"`, `threshold = 8.0` (the float of numeric value 8,
printed "8.0") and `query_type = retrieval`, and branch 5 of the Template
Synthesizer fires, emitting the skill-proficiency-filter template whose
lower-bound clause inlines that numeric value 8 (rendered `8.0` by Python
float formatting). -/
theorem C8_branch5_inlines_8 :
    (extract_entities (S ("Students with Python proficiency above 8"))).skill =
      some (S ("python")) ∧
    (extract_entities (S ("Students with Python proficiency above 8"))).threshold =
      some { mant := 8, scale := 0, rep := S ("8.0") } ∧
    ((extract_entities (S ("Students with Python proficiency above 8"))).threshold.map
        PyFloat.val) = some (8 : ℚ) ∧
    (extract_entities (S ("Students with Python proficiency above 8"))).query_type =
      QueryType.retrieval ∧
    intelligent_fallback (S ("Students with Python proficiency above 8"))
        (extract_entities (S ("Students with Python proficiency above 8"))) =
      tmplSkillBound (S ("python")) (S ("8.0")) ∧
    containsB
      (intelligent_fallback (S ("Students with Python proficiency above 8"))
        (extract_entities (S ("Students with Python proficiency above 8"))))
      (S ("has.proficiency > 8.0")) = true := by
  refine ⟨by decide, by decide, ?_, by decide, by decide⟩
  rw [show (extract_entities (S ("Students with Python proficiency above 8"))).threshold =
      some { mant := 8, scale := 0, rep := S ("8.0") } from by decide]
  simp [PyFloat.val]

/-! ## Claim C9 -/

/-- C9: for every utterance, the Intent Record returned by the Entity
Extractor carries a seventh field `course` that is always `none`: it is
initialized to null and no extraction rule of `extract_entities` ever
assigns it. -/
theorem C9_course_always_none (query : List Char) :
    (extract_entities query).course = none := rfl

/-! ## Claim C4

The spec describes classification as a priority cascade; the definitions
below restate the spec's branch conditions as plain predicates, and the
claim's theorem characterizes the code's `classifyQueryType` against them. -/

/-- Spec-side signal for `recommendation`: the lowered utterance contains
"recommend" or "suggest". -/
@[reducible] def specRecommendSignal (l : List Char) : Prop :=
  containsB l (S ("recommend")) = true ∨ containsB l (S ("suggest")) = true

/-- Spec-side signal for `gap_analysis`: contains "missing skill" or
"skill gap" or both "missing" and "skill". -/
@[reducible] def specGapSignal (l : List Char) : Prop :=
  containsB l (S ("missing skill")) = true ∨ containsB l (S ("skill gap")) = true ∨
    (containsB l (S ("missing")) = true ∧ containsB l (S ("skill")) = true)

/-- Spec-side signal for `matching`: contains "qualify", "eligible" or "match". -/
@[reducible] def specMatchingSignal (l : List Char) : Prop :=
  containsB l (S ("qualify")) = true ∨ containsB l (S ("eligible")) = true ∨
    containsB l (S ("match")) = true

/-- Spec-side signal for `aggregation`: contains "count", "average", "sum"
or "how many". -/
@[reducible] def specAggSignal (l : List Char) : Prop :=
  containsB l (S ("count")) = true ∨ containsB l (S ("average")) = true ∨
    containsB l (S ("sum")) = true ∨ containsB l (S ("how many")) = true

/-- C4: for every utterance, query-type classification is the stated priority
cascade over the lowercased utterance, first matching branch winning:
`recommendation` iff the recommend signal; else `gap_analysis` iff the gap
signal; else `matching` iff the matching signal; else `aggregation` iff the
aggregation signal; else `retrieval` — so exactly one query type is always
assigned. -/
theorem C4_classification_cascade (q : List Char) :
    (classifyQueryType (lowerL q) = QueryType.recommendation ↔
      specRecommendSignal (lowerL q)) ∧
    (classifyQueryType (lowerL q) = QueryType.gap_analysis ↔
      (¬specRecommendSignal (lowerL q) ∧ specGapSignal (lowerL q))) ∧
    (classifyQueryType (lowerL q) = QueryType.matching ↔
      (¬specRecommendSignal (lowerL q) ∧ ¬specGapSignal (lowerL q) ∧
        specMatchingSignal (lowerL q))) ∧
    (classifyQueryType (lowerL q) = QueryType.aggregation ↔
      (¬specRecommendSignal (lowerL q) ∧ ¬specGapSignal (lowerL q) ∧
        ¬specMatchingSignal (lowerL q) ∧ specAggSignal (lowerL q))) ∧
    (classifyQueryType (lowerL q) = QueryType.retrieval ↔
      (¬specRecommendSignal (lowerL q) ∧ ¬specGapSignal (lowerL q) ∧
        ¬specMatchingSignal (lowerL q) ∧ ¬specAggSignal (lowerL q))) := by
  generalize lowerL q = l
  have hR : specRecommendSignal l ↔
      (containsB l (S ("recommend")) || containsB l (S ("suggest"))) = true := by
    simp [specRecommendSignal]
  have hG : specGapSignal l ↔
      (containsB l (S ("missing skill")) || containsB l (S ("skill gap")) ||
        (containsB l (S ("missing")) && containsB l (S ("skill")))) = true := by
    simp [specGapSignal, Bool.and_eq_true, or_assoc]
  have hM : specMatchingSignal l ↔
      (containsB l (S ("qualify")) || containsB l (S ("eligible")) ||
        containsB l (S ("match"))) = true := by
    simp [specMatchingSignal, or_assoc]
  have hA : specAggSignal l ↔
      (containsB l (S ("count")) || containsB l (S ("average")) ||
        containsB l (S ("sum")) || containsB l (S ("how many"))) = true := by
    simp [specAggSignal, or_assoc]
  rw [hR, hG, hM, hA]
  unfold classifyQueryType
  generalize (containsB l (S ("recommend")) || containsB l (S ("suggest"))) = bR
  generalize (containsB l (S ("missing skill")) || containsB l (S ("skill gap")) ||
    (containsB l (S ("missing")) && containsB l (S ("skill")))) = bG
  generalize (containsB l (S ("qualify")) || containsB l (S ("eligible")) ||
    containsB l (S ("match"))) = bM
  generalize (containsB l (S ("count")) || containsB l (S ("average")) ||
    containsB l (S ("sum")) || containsB l (S ("how many"))) = bA
  revert bR bG bM bA
  decide

/-- C4 witness: the cascade characterization evaluated on the concrete
utterance "Count students by major", which classifies as `aggregation`. -/
theorem C4_classification_cascade_witness :
    classifyQueryType (lowerL (S ("Count students by major"))) = QueryType.aggregation ∧
    (¬specRecommendSignal (lowerL (S ("Count students by major"))) ∧
      ¬specGapSignal (lowerL (S ("Count students by major"))) ∧
      ¬specMatchingSignal (lowerL (S ("Count students by major"))) ∧
      specAggSignal (lowerL (S ("Count students by major")))) := by
  have h := C4_classification_cascade (S ("Count students by major"))
  exact ⟨(h.2.2.2.1).mpr ⟨by decide, by decide, by decide, by decide⟩,
    by decide, by decide, by decide, by decide⟩

/-! ## Claim C5 -/

/-- Taking at most the length of the left part of an append ignores the right
part. -/
theorem take_left_of_le (a x : List Char) (n : Nat) (h : n ≤ a.length) :
    (a ++ x).take n = a.take n := by
  rw [List.take_append_eq_append_take, Nat.sub_eq_zero_of_le h]
  simp

/-- Two appended lists differ when they differ on an initial segment shorter
than both left parts. -/
theorem ne_of_take_ne (a b x y : List Char) (n : Nat) (ha : n ≤ a.length)
    (hb : n ≤ b.length) (h : a.take n ≠ b.take n) : a ++ x ≠ b ++ y := by
  intro he
  apply h
  have := congrArg (List.take n) he
  rwa [take_left_of_le _ _ _ ha, take_left_of_le _ _ _ hb] at this

/-- C5: whenever branch 1's preconditions (query type `matching`, utterance
mentions "student", company known) and branch 5's preconditions (skill known,
utterance mentions "student") hold simultaneously, the Template Synthesizer
emits the branch-1 eligibility template and not the branch-5
skill-proficiency-filter template (in either of its two variants). -/
theorem C5_branch1_over_branch5 (query : List Char) (e : IntentRecord)
    (h1 : bMatching (lowerL query) e = true)
    (_h5 : bSkillStudent (lowerL query) e = true) :
    intelligent_fallback query e = tmplMatching (getS e.company) ∧
    intelligent_fallback query e ≠ tmplSkillBound (getS e.skill) (fmtT e.threshold) ∧
    intelligent_fallback query e ≠ tmplSkillNoBound (getS e.skill) := by
  have hout : intelligent_fallback query e = tmplMatching (getS e.company) := by
    unfold intelligent_fallback
    simp [h1]
  refine ⟨hout, ?_, ?_⟩
  · rw [hout]
    unfold tmplMatching tmplSkillBound
    exact ne_of_take_ne _ _ _ _ 8 (by decide) (by decide) (by decide)
  · rw [hout]
    unfold tmplMatching tmplSkillNoBound
    exact ne_of_take_ne _ _ _ _ 8 (by decide) (by decide) (by decide)

/-- C5 witness: a concrete utterance and Intent Record satisfying both
branch 1's and branch 5's preconditions resolve to the eligibility template. -/
theorem C5_branch1_over_branch5_witness :
    intelligent_fallback (S ("which students match amazon python"))
      { query_type := QueryType.matching
      , student_name := none
      , company := some (S ("amazon"))
      , role_keywords := none
      , skill := some (S ("python"))
      , course := none
      , threshold := none } = tmplMatching (S ("amazon")) :=
  (C5_branch1_over_branch5 (S ("which students match amazon python")) _
    (by decide) (by decide)).1

/-! ## Claim C3 -/

/-- Conjunction of the negations of all nine specific branch conditions of
the Template Synthesizer's dispatch. -/
def noBranchMatches (q : List Char) (e : IntentRecord) : Bool :=
  !bMatching q e && !bRecIntern q e && !bRecCourse q e && !bGap q e &&
    !bSkillStudent q e && !bStudentSkill q e && !bSkillCourse q e &&
    !bAggMajor q e && !bAggGpa q e

/-- A list with a nonempty left append part is nonempty. -/
theorem append_left_ne_nil {a : List Char} (x : List Char) (h : a ≠ []) :
    a ++ x ≠ [] := by
  intro he
  exact h (List.append_eq_nil.mp he).1

/-- C3: for every utterance string and every Intent Record, the Template
Query Synthesizer (a total function) returns a non-empty query string, and
when none of branches 1 through 9 match, the default branch 10
(list-all-students template) is taken. -/
theorem C3_total_nonempty_default (query : List Char) (e : IntentRecord) :
    intelligent_fallback query e ≠ [] ∧
    (noBranchMatches (lowerL query) e = true →
      intelligent_fallback query e = tmplAllStudents) := by
  constructor
  · unfold intelligent_fallback
    split
    · exact append_left_ne_nil _ (by decide)
    split
    · exact append_left_ne_nil _ (by decide)
    split
    · exact append_left_ne_nil _ (by decide)
    split
    · exact append_left_ne_nil _ (by decide)
    split
    · split
      · exact append_left_ne_nil _ (by decide)
      · exact append_left_ne_nil _ (by decide)
    split
    · exact append_left_ne_nil _ (by decide)
    split
    · exact append_left_ne_nil _ (by decide)
    split
    · decide
    split
    · decide
    · decide
  · intro h
    unfold noBranchMatches at h
    simp only [Bool.and_eq_true, Bool.not_eq_true'] at h
    obtain ⟨⟨⟨⟨⟨⟨⟨⟨h1, h2⟩, h3⟩, h4⟩, h5⟩, h6⟩, h7⟩, h8⟩, h9⟩
      := h
    unfold intelligent_fallback
    simp [h1, h2, h3, h4, h5, h6, h7, h8, h9]

/-- C3 witness: the utterance "hello" with its own extracted Intent Record
matches no specific branch, and the synthesizer returns the non-empty
list-all-students default. -/
theorem C3_total_nonempty_default_witness :
    intelligent_fallback (S ("hello")) (extract_entities (S ("hello"))) ≠ [] ∧
    intelligent_fallback (S ("hello")) (extract_entities (S ("hello"))) =
      tmplAllStudents :=
  ⟨(C3_total_nonempty_default (S ("hello")) (extract_entities (S ("hello")))).1,
    (C3_total_nonempty_default (S ("hello")) (extract_entities (S ("hello")))).2
      (by decide)⟩

/-! ### Substring reasoning: bridges between the executable tests and
`List.IsPrefix`/`List.IsInfix`, and an occurrence-decomposition lemma. -/

/-- The executable prefix test agrees with `List.IsPrefix`. -/
theorem isPrefixB_iff (p s : List Char) : isPrefixB p s = true ↔ p <+: s := by
  induction p generalizing s with
  | nil => simp [isPrefixB]
  | cons a as ih =>
    cases s with
    | nil => simp [isPrefixB]
    | cons b bs => simp [isPrefixB, ih, List.cons_prefix_cons]

/-- The executable substring test agrees with `List.IsInfix`. -/
theorem containsB_iff (hay pat : List Char) : containsB hay pat = true ↔ pat <:+: hay := by
  induction hay with
  | nil =>
    rw [containsB]
    simp [isPrefixB_iff]
  | cons c t ih =>
    rw [containsB]
    simp only [Bool.or_eq_true, isPrefixB_iff, ih]
    exact (List.infix_cons_iff).symm

/-- An infix occurrence within a component is an occurrence in the append. -/
theorem infix_append_left_of (x : List Char) {t y : List Char} (h : t <:+: y) :
    t <:+: x ++ y :=
  h.trans ((List.suffix_append x y).isInfix)

/-- An infix occurrence within a component is an occurrence in the append. -/
theorem infix_append_right_of (y : List Char) {t x : List Char} (h : t <:+: x) :
    t <:+: x ++ y :=
  h.trans ((List.prefix_append x y).isInfix)

/-- Decomposition of an occurrence in an append: it lies in the left part, in
the right part, or spans the boundary as a nonempty suffix of the left part
followed by a nonempty prefix of the right part. -/
theorem infix_append_cases {t u v : List Char} (h : t <:+: u ++ v) :
    t <:+: u ∨ t <:+: v ∨
      ∃ a b, t = a ++ b ∧ a ≠ [] ∧ b ≠ [] ∧ a <:+ u ∧ b <+: v := by
  induction u with
  | nil =>
    exact Or.inr (Or.inl (by simpa using h))
  | cons c u' ih =>
    rw [List.cons_append, List.infix_cons_iff] at h
    rcases h with hpre | hinf
    · rw [← List.cons_append] at hpre
      rcases List.prefix_or_prefix_of_prefix hpre (List.prefix_append (c :: u') v)
        with h1 | h2
      · exact Or.inl h1.isInfix
      · obtain ⟨b, hb⟩ := h2
        rcases b with _ | ⟨d, b'⟩
        · rw [List.append_nil] at hb
          exact Or.inl (hb ▸ List.infix_refl _)
        · refine Or.inr (Or.inr ⟨c :: u', d :: b', hb.symm, by simp, by simp,
            List.suffix_refl _, ?_⟩)
          have : (c :: u') ++ (d :: b') <+: (c :: u') ++ v := hb ▸ hpre
          exact (List.prefix_append_right_inj (c :: u')).mp this
    · rcases ih hinf with h1 | h2 | ⟨a, b, ht, ha, hb, hsu, hpv⟩
      · exact Or.inl (List.infix_cons_iff.mpr (Or.inr h1))
      · exact Or.inr (Or.inl h2)
      · exact Or.inr (Or.inr ⟨a, b, ht, ha, hb, hsu.trans (List.suffix_cons c u'), hpv⟩)

/-! ## Claim C2 -/

/-- Branch 5 of the dispatch is reached exactly when branches 1-4 fail and
branch 5's own condition holds. -/
def reachesBranch5 (query : List Char) (e : IntentRecord) : Bool :=
  !bMatching (lowerL query) e && !bRecIntern (lowerL query) e &&
    !bRecCourse (lowerL query) e && !bGap (lowerL query) e &&
    bSkillStudent (lowerL query) e

/-- The proficiency lower-bound clause text of branch 5. -/
def boundClause : List Char := S ("has.proficiency > ")

/-- On the branch-5 path, the synthesizer reduces to the two skill templates. -/
theorem fallback_branch5 (query : List Char) (e : IntentRecord)
    (h : reachesBranch5 query e = true) :
    intelligent_fallback query e =
      (if pyTruthyF e.threshold then tmplSkillBound (getS e.skill) (fmtT e.threshold)
       else tmplSkillNoBound (getS e.skill)) := by
  unfold reachesBranch5 at h
  simp only [Bool.and_eq_true, Bool.not_eq_true'] at h
  obtain ⟨⟨⟨⟨h1, h2⟩, h3⟩, h4⟩, h5⟩ := h
  unfold intelligent_fallback
  simp [h1, h2, h3, h4, h5]

/-- The bound variant of the branch-5 template always carries the
proficiency lower-bound clause. -/
theorem boundClause_in_tmplSkillBound (skill thr : List Char) :
    containsB (tmplSkillBound skill thr) boundClause = true := by
  rw [containsB_iff]
  unfold tmplSkillBound
  refine infix_append_left_of _ (infix_append_left_of _ (infix_append_right_of _ ?_))
  decide

/-- The no-bound variant of the branch-5 template contains no proficiency
lower-bound clause as long as the interpolated skill text has no `>`
character (every skill in the extractor's vocabulary satisfies this). -/
theorem boundClause_not_in_tmplSkillNoBound (skill : List Char)
    (hgt : ∀ c ∈ skill, c ≠ '>') :
    containsB (tmplSkillNoBound skill) boundClause = false := by
  rw [← Bool.not_eq_true, containsB_iff]
  intro hocc
  have hsub : S ("> ") <:+: tmplSkillNoBound skill :=
    List.IsInfix.trans (by decide) hocc
  unfold tmplSkillNoBound at hsub
  rcases infix_append_cases hsub with h1 | h2 | ⟨a, b, hab, ha, hb, hsu, hpv⟩
  · exact absurd h1 (by decide)
  · rcases infix_append_cases h2 with h3 | h4 | ⟨a, b, hab, ha, hb, hsu, hpv⟩
    · exact hgt '>' (h3.mem (by decide)) rfl
    · exact absurd h4 (by decide)
    · -- a nonempty prefix of "> " that is a suffix of the skill text
      have hx : '>' ∈ a := by
        rcases a with _ | ⟨x, a'⟩
        · exact absurd rfl ha
        · have hx : x = '>' := by
            have := congrArg (fun l => l.head?) hab
            simpa [S] using this.symm
          simp [hx]
      exact hgt '>' (hsu.isInfix.mem hx) rfl
  · -- a nonempty prefix of "> " that is a suffix of the leading literal;
    -- since b is nonempty, a must be exactly ">", and the literal does not
    -- end with ">"
    have hlen : a.length + b.length = 2 := by
      have := congrArg List.length hab
      simp [S] at this
      omega
    have hbl : 1 ≤ b.length := by
      rcases b with _ | ⟨y, b'⟩
      · exact absurd rfl hb
      · simp
    rcases a with _ | ⟨x, a'⟩
    · exact absurd rfl ha
    · have ha' : a' = [] := by
        have : a'.length = 0 := by
          simp at hlen
          omega
        exact List.eq_nil_of_length_eq_zero this
      have hx : x = '>' := by
        have := congrArg (fun l => l.head?) hab
        simpa [S] using this.symm
      rw [ha', hx] at hsu
      exact absurd hsu (by decide)

/-- Every skill in the extractor's vocabulary is free of the `>` character. -/
theorem commonSkills_gtFree : ∀ sk ∈ commonSkills, ∀ c ∈ sk, c ≠ '>' := by
  decide

/-- A skill extracted by `extract_entities` always comes from the vocabulary. -/
theorem extracted_skill_mem (ql sk : List Char) (h : findSkill ql = some sk) :
    sk ∈ commonSkills :=
  List.mem_of_find?_eq_some h

/-- C2 counterexample: on "Students with Python proficiency above 0" a
threshold IS extracted into the Intent Record (value 0.0), branch 5 is
reached, yet the emitted query is the no-bound variant and contains no
proficiency lower-bound clause — refuting the claimed "if and only if a
threshold was extracted" (Python's `if threshold:` treats the float `0.0`
like an absent threshold). -/
theorem C2_counterexample :
    (extract_entities (S ("Students with Python proficiency above 0"))).threshold =
      some { mant := 0, scale := 0, rep := S ("0.0") } ∧
    reachesBranch5 (S ("Students with Python proficiency above 0"))
      (extract_entities (S ("Students with Python proficiency above 0"))) = true ∧
    intelligent_fallback (S ("Students with Python proficiency above 0"))
      (extract_entities (S ("Students with Python proficiency above 0"))) =
      tmplSkillNoBound (S ("python")) ∧
    containsB
      (intelligent_fallback (S ("Students with Python proficiency above 0"))
        (extract_entities (S ("Students with Python proficiency above 0"))))
      boundClause = false := by
  refine ⟨by decide, by decide, by decide, by decide⟩

/-- C2 amended: in branch 5, the emitted query carries the explicit
proficiency lower-bound clause if and only if a threshold with nonzero
numeric value was extracted (Python truthiness: `0.0` behaves like no
threshold); when the bound is present it uses exactly the extracted
threshold's printed value, and when the threshold is absent or zero the
bound is omitted entirely rather than defaulting to any fixed number.  The
clause-presence equivalence is stated for skills without a `>` character,
which covers every skill the Entity Extractor can produce (last conjunct). -/
theorem C2_amended (query : List Char) (e : IntentRecord)
    (h5 : reachesBranch5 query e = true) :
    (pyTruthyF e.threshold = false →
      intelligent_fallback query e = tmplSkillNoBound (getS e.skill)) ∧
    (∀ t, e.threshold = some t → t.mant ≠ 0 →
      intelligent_fallback query e = tmplSkillBound (getS e.skill) t.rep) ∧
    (∀ sk, e.skill = some sk → (∀ c ∈ sk, c ≠ '>') →
      (containsB (intelligent_fallback query e) boundClause = true ↔
        pyTruthyF e.threshold = true)) ∧
    (∀ p sk, (extract_entities p).skill = some sk → ∀ c ∈ sk, c ≠ '>') := by
  have hbr := fallback_branch5 query e h5
  refine ⟨?_, ?_, ?_, ?_⟩
  · intro hf
    rw [hbr, hf]
    simp
  · intro t ht hmant
    have htr : pyTruthyF e.threshold = true := by
      rw [ht]
      unfold pyTruthyF
      simpa using hmant
    rw [hbr, htr]
    simp [fmtT, ht]
  · intro sk hsk hgt
    rcases hf : pyTruthyF e.threshold with _ | _
    · have hno : intelligent_fallback query e = tmplSkillNoBound (getS e.skill) := by
        rw [hbr, hf]
        simp
      rw [hno,
        boundClause_not_in_tmplSkillNoBound (getS e.skill) (by simpa [getS, hsk] using hgt)]
    · have hyes : intelligent_fallback query e =
          tmplSkillBound (getS e.skill) (fmtT e.threshold) := by
        rw [hbr, hf]
        simp
      rw [hyes, boundClause_in_tmplSkillBound]
  · intro p sk hsk
    exact commonSkills_gtFree sk (extracted_skill_mem (lowerL p) sk hsk)

/-- C2 witness: on "Students with Python proficiency above 7" branch 5 is
reached with extracted threshold 7.0, and the amended claim yields the bound
template with exactly the extracted value and a present bound clause. -/
theorem C2_amended_witness :
    intelligent_fallback (S ("Students with Python proficiency above 7"))
      (extract_entities (S ("Students with Python proficiency above 7"))) =
      tmplSkillBound (S ("python")) (S ("7.0")) ∧
    (containsB
      (intelligent_fallback (S ("Students with Python proficiency above 7"))
        (extract_entities (S ("Students with Python proficiency above 7"))))
      boundClause = true) := by
  have h := C2_amended (S ("Students with Python proficiency above 7"))
    (extract_entities (S ("Students with Python proficiency above 7"))) (by decide)
  constructor
  · have := h.2.1 { mant := 7, scale := 0, rep := S ("7.0") } (by decide) (by decide)
    simpa [getS, show (extract_entities
      (S ("Students with Python proficiency above 7"))).skill = some (S ("python"))
      from by decide] using this
  · exact (h.2.2.1 (S ("python")) (by decide) (by decide)).mpr (by decide)

/-! ### Theory of `replaceAll`

The lemmas below give `replaceAll` a fuel-free rewriting interface and then
establish the occurrence properties needed by the scoping-fix and sanitizer
claims: replacement leaves no pattern occurrence behind, introduces the
replacement text when the pattern occurred, creates no new occurrences of an
unrelated target string (under decidable side conditions on the pattern,
replacement and target), preserves images under a character map when pattern
and replacement agree under that map, and is the identity when the pattern
does not occur. -/

/-- The fuel of `replaceAllF` is irrelevant once it dominates the input
length. -/
theorem replaceAllF_fuel (pat repl : List Char) :
    ∀ f1 f2 (s : List Char), s.length ≤ f1 → s.length ≤ f2 →
      replaceAllF pat repl f1 s = replaceAllF pat repl f2 s := by
  intro f1
  induction f1 with
  | zero =>
    intro f2 s hs1 _
    have : s = [] := List.eq_nil_of_length_eq_zero (Nat.le_zero.mp hs1)
    subst this
    cases f2 <;> rfl
  | succ n ih =>
    intro f2 s hs1 hs2
    cases s with
    | nil => cases f2 <;> rfl
    | cons c t =>
      cases f2 with
      | zero => simp at hs2
      | succ m =>
        simp only [replaceAllF]
        split
        · rename_i hcond
          congr 1
          have hdrop : ((c :: t).drop pat.length).length ≤ n := by
            have h1 : 1 ≤ pat.length := by
              cases pat with
              | nil => exact absurd rfl hcond.1
              | cons a as => simp
            rw [List.length_drop]
            simp at hs1 ⊢
            omega
          have hdrop2 : ((c :: t).drop pat.length).length ≤ m := by
            have h1 : 1 ≤ pat.length := by
              cases pat with
              | nil => exact absurd rfl hcond.1
              | cons a as => simp
            rw [List.length_drop]
            simp at hs2 ⊢
            omega
          exact ih m _ hdrop hdrop2
        · congr 1
          have h1 : t.length ≤ n := by
            simp at hs1
            omega
          have h2 : t.length ≤ m := by
            simp at hs2
            omega
          exact ih m t h1 h2

/-- Rewriting equation of `replaceAll` at a position where the pattern
matches. -/
theorem replaceAll_cons_pos {pat : List Char} (repl : List Char) {c : Char}
    {t : List Char} (hpat : pat ≠ []) (h : pat <+: c :: t) :
    replaceAll pat repl (c :: t) =
      repl ++ replaceAll pat repl ((c :: t).drop pat.length) := by
  unfold replaceAll
  have hb : isPrefixB pat (c :: t) = true := (isPrefixB_iff _ _).mpr h
  show replaceAllF pat repl (t.length + 1) (c :: t) = _
  simp only [replaceAllF]
  rw [if_pos ⟨hpat, hb⟩]
  congr 1
  apply replaceAllF_fuel
  · have h1 : 1 ≤ pat.length := by
      cases pat with
      | nil => exact absurd rfl hpat
      | cons a as => simp
    rw [List.length_drop]
    simp
    omega
  · exact Nat.le_refl _

/-- Rewriting equation of `replaceAll` at a position where the pattern does
not match. -/
theorem replaceAll_cons_neg {pat : List Char} (repl : List Char) {c : Char}
    {t : List Char} (h : ¬ pat <+: c :: t) :
    replaceAll pat repl (c :: t) = c :: replaceAll pat repl t := by
  unfold replaceAll
  have hb : ¬ (pat ≠ [] ∧ isPrefixB pat (c :: t) = true) := by
    rintro ⟨_, hpre⟩
    exact h ((isPrefixB_iff _ _).mp hpre)
  show replaceAllF pat repl (t.length + 1) (c :: t) = _
  simp only [replaceAllF]
  rw [if_neg hb]

/-- `replaceAll` on the empty string. -/
theorem replaceAll_nil (pat repl : List Char) : replaceAll pat repl [] = [] := rfl

/-- When the pattern does not occur, `replaceAll` is the identity. -/
theorem replaceAll_eq_self {pat : List Char} (repl : List Char)
    (s : List Char) (h : ¬ pat <:+: s) : replaceAll pat repl s = s := by
  induction s with
  | nil => rfl
  | cons c t ih =>
    rw [List.infix_cons_iff] at h
    push_neg at h
    rw [replaceAll_cons_neg repl h.1, ih h.2]

/-- When the pattern occurs, the replacement text occurs in the output. -/
theorem replaceAll_contains_repl {pat : List Char} (repl : List Char)
    (hpat : pat ≠ []) :
    ∀ s, pat <:+: s → repl <:+: replaceAll pat repl s := by
  have key : ∀ n (s : List Char), s.length ≤ n → pat <:+: s →
      repl <:+: replaceAll pat repl s := by
    intro n
    induction n with
    | zero =>
      intro s hs h
      have : s = [] := List.eq_nil_of_length_eq_zero (Nat.le_zero.mp hs)
      subst this
      rw [List.infix_nil] at h
      exact absurd h hpat
    | succ n ih =>
      intro s hs h
      cases s with
      | nil =>
        rw [List.infix_nil] at h
        exact absurd h hpat
      | cons c t =>
        by_cases hpre : pat <+: c :: t
        · rw [replaceAll_cons_pos repl hpat hpre]
          exact infix_append_right_of _ (List.infix_refl repl)
        · rw [replaceAll_cons_neg repl hpre]
          rcases List.infix_cons_iff.mp h with h1 | h2
          · exact absurd h1 hpre
          · refine List.infix_cons_iff.mpr (Or.inr ?_)
            refine ih t ?_ h2
            simp at hs
            omega
  intro s
  exact key s.length s (Nat.le_refl _)

/-- When pattern and replacement have the same image under a character map
`f`, replacement preserves the image of the whole string (used for the
case-only scoping rule `ORDER BY match_percent` → `ORDER BY Match_Percent`
with `f` the lowercasing map). -/
theorem replaceAll_map_eq (f : Char → Char) {pat : List Char} (repl : List Char)
    (hpat : pat ≠ []) (hf : pat.map f = repl.map f) :
    ∀ s, (replaceAll pat repl s).map f = s.map f := by
  have key : ∀ n (s : List Char), s.length ≤ n →
      (replaceAll pat repl s).map f = s.map f := by
    intro n
    induction n with
    | zero =>
      intro s hs
      have : s = [] := List.eq_nil_of_length_eq_zero (Nat.le_zero.mp hs)
      subst this
      rfl
    | succ n ih =>
      intro s hs
      cases s with
      | nil => rfl
      | cons c t =>
        by_cases hpre : pat <+: c :: t
        · rw [replaceAll_cons_pos repl hpat hpre]
          obtain ⟨u, hu⟩ := hpre
          have hdrop : (c :: t).drop pat.length = u := by
            rw [← hu, List.drop_left]
          have hul : u.length ≤ n := by
            have h1 : 1 ≤ pat.length := by
              cases pat with
              | nil => exact absurd rfl hpat
              | cons a as => simp
            have := congrArg List.length hu
            simp at this hs
            omega
          rw [hdrop, List.map_append, ih u hul, ← hf, ← List.map_append, hu]
        · rw [replaceAll_cons_neg repl hpre]
          simp only [List.map_cons]
          rw [ih t (by simp at hs; omega)]
  intro s
  exact key s.length s (Nat.le_refl _)

/-- A nonempty prefix of an append that is no longer than the left part is a
prefix of the left part. -/
theorem prefix_of_append_of_le {b y x : List Char} (h : b <+: y ++ x)
    (hlen : b.length ≤ y.length) : b <+: y := by
  rw [List.prefix_iff_eq_take] at h
  rw [h, take_left_of_le _ _ _ hlen]
  exact List.take_prefix _ _

/-- Tracking lemma: a nonempty suffix of a target `t` that appears as a
prefix of the image of `replaceAll pat repl s` under a character map `f`
already appears as a prefix of the image of `s`, provided no nonempty suffix
of `t` is a prefix of the image of `repl`. -/
theorem replaceAll_track (f : Char → Char) {pat : List Char} (repl t : List Char)
    (hpat : pat ≠ []) (hlen : t.length ≤ repl.length)
    (hsc : ∀ n, n < t.length → ¬ ((t.drop n) <+: repl.map f)) :
    ∀ s b, b <:+ t → b ≠ [] → b <+: (replaceAll pat repl s).map f →
      b <+: s.map f := by
  have key : ∀ m (s : List Char), s.length ≤ m → ∀ b, b <:+ t → b ≠ [] →
      b <+: (replaceAll pat repl s).map f → b <+: s.map f := by
    intro m
    induction m with
    | zero =>
      intro s hs b _ hb hpre
      have : s = [] := List.eq_nil_of_length_eq_zero (Nat.le_zero.mp hs)
      subst this
      rw [replaceAll_nil] at hpre
      simp only [List.map_nil] at hpre
      exact absurd (List.prefix_nil.mp hpre) hb
    | succ m ih =>
      intro s hs b hbt hb hpre
      cases s with
      | nil =>
        rw [replaceAll_nil] at hpre
        simp only [List.map_nil] at hpre
        exact absurd (List.prefix_nil.mp hpre) hb
      | cons c t' =>
        by_cases hp : pat <+: c :: t'
        · exfalso
          rw [replaceAll_cons_pos repl hpat hp] at hpre
          rw [List.map_append] at hpre
          have hble : b.length ≤ (repl.map f).length := by
            have h1 := hbt.length_le
            simp only [List.length_map]
            omega
          have hbp : b <+: repl.map f := prefix_of_append_of_le hpre hble
          obtain ⟨u, hu⟩ := hbt
          have hn : u.length < t.length := by
            have := congrArg List.length hu
            simp at this
            rcases b with _ | ⟨b0, b1⟩
            · exact absurd rfl hb
            · simp at this
              omega
          have hdrop : t.drop u.length = b := by
            rw [← hu, List.drop_left]
          exact hsc u.length hn (hdrop ▸ hbp)
        · rw [replaceAll_cons_neg repl hp] at hpre
          simp only [List.map_cons] at hpre
          rcases b with _ | ⟨b0, b1⟩
          · exact absurd rfl hb
          · rw [List.cons_prefix_cons] at hpre
            obtain ⟨hb0, hb1⟩ := hpre
            rcases b1 with _ | ⟨b2, b3⟩
            · simp only [List.map_cons, List.cons_prefix_cons]
              exact ⟨hb0, List.nil_prefix⟩
            · have hb1t : (b2 :: b3) <:+ t := by
                obtain ⟨u, hu⟩ := hbt
                exact ⟨u ++ [b0], by simpa using hu⟩
              have := ih t' (by simp at hs; omega) (b2 :: b3) hb1t (by simp) hb1
              simp only [List.map_cons, List.cons_prefix_cons]
              exact ⟨hb0, this⟩
  intro s
  exact key s.length s (Nat.le_refl _)

/-- No-new-occurrence lemma: under decidable side conditions relating the
target `t`, the pattern and the image of the replacement, `replaceAll`
cannot create an occurrence of `t` in the image of the string under `f`
where none existed. -/
theorem replaceAll_no_new (f : Char → Char) {pat : List Char} (repl t : List Char)
    (hpat : pat ≠ []) (ht : t ≠ []) (hlen : t.length ≤ repl.length)
    (hrepl : ¬ t <:+: repl.map f)
    (hspan : ∀ n, 0 < n → n < t.length → ¬ ((t.take n) <:+ repl.map f))
    (hsc : ∀ n, n < t.length → ¬ ((t.drop n) <+: repl.map f)) :
    ∀ s, ¬ t <:+: s.map f → ¬ t <:+: (replaceAll pat repl s).map f := by
  have key : ∀ m (s : List Char), s.length ≤ m → ¬ t <:+: s.map f →
      ¬ t <:+: (replaceAll pat repl s).map f := by
    intro m
    induction m with
    | zero =>
      intro s hs hno
      have : s = [] := List.eq_nil_of_length_eq_zero (Nat.le_zero.mp hs)
      subst this
      rw [replaceAll_nil]
      exact hno
    | succ m ih =>
      intro s hs hno
      cases s with
      | nil =>
        rw [replaceAll_nil]
        exact hno
      | cons c t' =>
        by_cases hp : pat <+: c :: t'
        · rw [replaceAll_cons_pos repl hpat hp]
          obtain ⟨u, hu⟩ := hp
          have hdrop : (c :: t').drop pat.length = u := by
            rw [← hu, List.drop_left]
          rw [hdrop, List.map_append]
          have hnou : ¬ t <:+: u.map f := by
            intro hocc
            exact hno (by
              rw [← hu, List.map_append]
              exact infix_append_left_of _ hocc)
          have hul : u.length ≤ m := by
            have h1 : 1 ≤ pat.length := by
              cases pat with
              | nil => exact absurd rfl hpat
              | cons a as => simp
            have := congrArg List.length hu
            simp at this hs
            omega
          have hih := ih u hul hnou
          intro hocc
          rcases infix_append_cases hocc with h1 | h2 | ⟨a, b, hab, ha, hb, hsu, hpv⟩
          · exact hrepl h1
          · exact hih h2
          · have hapre : a <+: t := ⟨b, hab.symm⟩
            have haeq : a = t.take a.length := List.prefix_iff_eq_take.mp hapre
            have halt : a.length < t.length := by
              have := congrArg List.length hab
              rcases b with _ | ⟨b0, b1⟩
              · exact absurd rfl hb
              · simp at this
                omega
            have hapos : 0 < a.length := by
              rcases a with _ | ⟨a0, a1⟩
              · exact absurd rfl ha
              · simp
            exact hspan a.length hapos halt (haeq ▸ hsu)
        · rw [replaceAll_cons_neg repl hp]
          simp only [List.map_cons]
          have hnot' : ¬ t <:+: t'.map f := by
            intro hocc
            exact hno (by
              simp only [List.map_cons]
              exact List.infix_cons_iff.mpr (Or.inr hocc))
          have hih := ih t' (by simp at hs; omega) hnot'
          intro hocc
          rcases List.infix_cons_iff.mp hocc with hpre | hinf
          · rcases t with _ | ⟨t0, t1⟩
            · exact absurd rfl ht
            · rw [List.cons_prefix_cons] at hpre
              obtain ⟨ht0, ht1⟩ := hpre
              rcases t1 with _ | ⟨t2, t3⟩
              · exact hno (by
                  simp only [List.map_cons]
                  exact (List.cons_prefix_cons.mpr ⟨ht0, List.nil_prefix⟩).isInfix)
              · have := replaceAll_track f repl (t0 :: t2 :: t3) hpat hlen hsc t'
                  (t2 :: t3) ⟨[t0], rfl⟩ (by simp) ht1
                exact hno (by
                  simp only [List.map_cons]
                  exact (List.cons_prefix_cons.mpr ⟨ht0, this⟩).isInfix)
          · exact hih hinf
  intro s
  exact key s.length s (Nat.le_refl _)

/-- Self-freeness lemma: after `replaceAll pat repl`, no occurrence of the
pattern remains, under decidable side conditions on pattern and
replacement. -/
theorem replaceAll_pat_free {pat : List Char} (repl : List Char)
    (hpat : pat ≠ []) (hlen : pat.length ≤ repl.length)
    (hrepl : ¬ pat <:+: repl)
    (hspan : ∀ n, 0 < n → n < pat.length → ¬ ((pat.take n) <:+ repl))
    (hsc : ∀ n, n < pat.length → ¬ ((pat.drop n) <+: repl)) :
    ∀ s, ¬ pat <:+: replaceAll pat repl s := by
  have hsc' : ∀ n, n < pat.length → ¬ ((pat.drop n) <+: repl.map id) := by
    simpa [List.map_id] using hsc
  have key : ∀ m (s : List Char), s.length ≤ m → ¬ pat <:+: replaceAll pat repl s := by
    intro m
    induction m with
    | zero =>
      intro s hs
      have : s = [] := List.eq_nil_of_length_eq_zero (Nat.le_zero.mp hs)
      subst this
      rw [replaceAll_nil, List.infix_nil]
      exact hpat
    | succ m ih =>
      intro s hs
      cases s with
      | nil =>
        rw [replaceAll_nil, List.infix_nil]
        exact hpat
      | cons c t' =>
        by_cases hp : pat <+: c :: t'
        · rw [replaceAll_cons_pos repl hpat hp]
          obtain ⟨u, hu⟩ := hp
          have hdrop : (c :: t').drop pat.length = u := by
            rw [← hu, List.drop_left]
          rw [hdrop]
          have hul : u.length ≤ m := by
            have h1 : 1 ≤ pat.length := by
              cases pat with
              | nil => exact absurd rfl hpat
              | cons a as => simp
            have := congrArg List.length hu
            simp at this hs
            omega
          intro hocc
          rcases infix_append_cases hocc with h1 | h2 | ⟨a, b, hab, ha, hb, hsu, hpv⟩
          · exact hrepl h1
          · exact ih u hul h2
          · have hapre : a <+: pat := ⟨b, hab.symm⟩
            have haeq : a = pat.take a.length := List.prefix_iff_eq_take.mp hapre
            have halt : a.length < pat.length := by
              have := congrArg List.length hab
              rcases b with _ | ⟨b0, b1⟩
              · exact absurd rfl hb
              · simp at this
                omega
            have hapos : 0 < a.length := by
              rcases a with _ | ⟨a0, a1⟩
              · exact absurd rfl ha
              · simp
            exact hspan a.length hapos halt (haeq ▸ hsu)
        · rw [replaceAll_cons_neg repl hp]
          intro hocc
          rcases List.infix_cons_iff.mp hocc with hpre | hinf
          · rcases hpt : pat with _ | ⟨p0, p1⟩
            · exact hpat hpt
            · subst hpt
              rw [List.cons_prefix_cons] at hpre
              obtain ⟨hp0, hp1⟩ := hpre
              rcases p1 with _ | ⟨p2, p3⟩
              · exact hp (by
                  rw [hp0]
                  exact (List.cons_prefix_cons.mpr ⟨rfl, List.nil_prefix⟩))
              · have := replaceAll_track id repl (p0 :: p2 :: p3) hpat hlen hsc' t'
                  (p2 :: p3) ⟨[p0], rfl⟩ (by simp)
                  (by simpa [List.map_id] using hp1)
                rw [List.map_id] at this
                exact hp (by
                  rw [hp0]
                  exact List.cons_prefix_cons.mpr ⟨rfl, this⟩)
          · exact ih t' (by simp at hs; omega) hinf
  intro s
  exact key s.length s (Nat.le_refl _)

/-! ## Claim C7 -/

/-- C7: each rule of the Sanitizer's scoping fix rewrites the ordering clause
to the public alias exactly when its alias pairing is present.  When an input
contains both `ORDER BY avg_gap` and `as Skill_Gap_Filled`, rule 1 replaces
every occurrence of `ORDER BY avg_gap` (none remains) with
`ORDER BY Skill_Gap_Filled` (which is introduced); without that pairing
rule 1 leaves the input unchanged; rule 2 behaves analogously for
`ORDER BY match_percent` / `as Match_Percent`; and `_fix_cypher_scoping` is
exactly rule 1 followed by rule 2. -/
theorem C7_scoping_rules (s : List Char) :
    ((containsB s sc1pat && containsB s sc1alias) = true →
      fixStep1 s = replaceAll sc1pat sc1rep s ∧
      containsB (fixStep1 s) sc1pat = false ∧
      containsB (fixStep1 s) sc1rep = true) ∧
    ((containsB s sc1pat && containsB s sc1alias) = false → fixStep1 s = s) ∧
    ((containsB s sc2pat && containsB s sc2alias) = true →
      fixStep2 s = replaceAll sc2pat sc2rep s ∧
      containsB (fixStep2 s) sc2pat = false ∧
      containsB (fixStep2 s) sc2rep = true) ∧
    ((containsB s sc2pat && containsB s sc2alias) = false → fixStep2 s = s) ∧
    fix_cypher_scoping s = fixStep2 (fixStep1 s) := by
  have hspan1 : ∀ n, n < sc1pat.length → 0 < n → ¬ ((sc1pat.take n) <:+ sc1rep) := by
    decide
  have hsc1 : ∀ n, n < sc1pat.length → ¬ ((sc1pat.drop n) <+: sc1rep) := by
    decide
  have hspan2 : ∀ n, n < sc2pat.length → 0 < n → ¬ ((sc2pat.take n) <:+ sc2rep) := by
    decide
  have hsc2 : ∀ n, n < sc2pat.length → ¬ ((sc2pat.drop n) <+: sc2rep) := by
    decide
  refine ⟨?_, ?_, ?_, ?_, rfl⟩
  · intro h
    have heq : fixStep1 s = replaceAll sc1pat sc1rep s := by
      unfold fixStep1
      rw [if_pos h]
    refine ⟨heq, ?_, ?_⟩
    · rw [heq, ← Bool.not_eq_true, containsB_iff]
      exact replaceAll_pat_free sc1rep (by decide) (by decide) (by decide)
        (fun n hpos hlt => hspan1 n hlt hpos) hsc1 s
    · rw [heq, containsB_iff]
      exact replaceAll_contains_repl sc1rep (by decide) s
        ((containsB_iff _ _).mp (by simp only [Bool.and_eq_true] at h; exact h.1))
  · intro h
    unfold fixStep1
    rw [if_neg (by simp [h])]
  · intro h
    have heq : fixStep2 s = replaceAll sc2pat sc2rep s := by
      unfold fixStep2
      rw [if_pos h]
    refine ⟨heq, ?_, ?_⟩
    · rw [heq, ← Bool.not_eq_true, containsB_iff]
      exact replaceAll_pat_free sc2rep (by decide) (by decide) (by decide)
        (fun n hpos hlt => hspan2 n hlt hpos) hsc2 s
    · rw [heq, containsB_iff]
      exact replaceAll_contains_repl sc2rep (by decide) s
        ((containsB_iff _ _).mp (by simp only [Bool.and_eq_true] at h; exact h.1))
  · intro h
    unfold fixStep2
    rw [if_neg (by simp [h])]

/-- C7 witness: rule 1 rewrites a concrete paired input and leaves a concrete
unpaired input alone. -/
theorem C7_scoping_rules_witness :
    fixStep1 (S ("RETURN round(avg_gap, 1) as Skill_Gap_Filled\nORDER BY avg_gap DESC")) =
      replaceAll sc1pat sc1rep
        (S ("RETURN round(avg_gap, 1) as Skill_Gap_Filled\nORDER BY avg_gap DESC")) ∧
    containsB
      (fixStep1 (S ("RETURN round(avg_gap, 1) as Skill_Gap_Filled\nORDER BY avg_gap DESC")))
      sc1pat = false ∧
    containsB
      (fixStep1 (S ("RETURN round(avg_gap, 1) as Skill_Gap_Filled\nORDER BY avg_gap DESC")))
      sc1rep = true ∧
    fixStep1 (S ("ORDER BY avg_gap DESC")) = S ("ORDER BY avg_gap DESC") ∧
    fixStep2 (S ("ORDER BY avg_gap DESC")) = S ("ORDER BY avg_gap DESC") := by
  have h1 := C7_scoping_rules
    (S ("RETURN round(avg_gap, 1) as Skill_Gap_Filled\nORDER BY avg_gap DESC"))
  have h2 := C7_scoping_rules (S ("ORDER BY avg_gap DESC"))
  obtain ⟨ha, -, -, -, -⟩ := h1
  obtain ⟨-, hb, -, hc, -⟩ := h2
  obtain ⟨he1, he2, he3⟩ := ha (by decide)
  exact ⟨he1, he2, he3, hb (by decide), hc (by decide)⟩

/-! ### Strip, split and join lemmas for the sanitizer claims -/

/-- The head of a `dropWhile` result never satisfies the dropped predicate. -/
theorem head?_dropWhile_not (p : Char → Bool) (l : List Char) (c : Char)
    (h : (l.dropWhile p).head? = some c) : p c = false := by
  induction l with
  | nil => simp at h
  | cons a t ih =>
    by_cases hp : p a = true
    · rw [List.dropWhile_cons_of_pos hp] at h
      exact ih h
    · rw [List.dropWhile_cons_of_neg hp] at h
      simp at h
      rw [← h]
      simpa using hp

/-- `dropWhile` is the identity when the head does not satisfy the predicate. -/
theorem dropWhile_eq_self_of_head (p : Char → Bool) (l : List Char)
    (h : ∀ c, l.head? = some c → p c = false) : l.dropWhile p = l := by
  cases l with
  | nil => rfl
  | cons a t =>
    rw [List.dropWhile_cons_of_neg]
    simp [h a rfl]

/-- `rstripP` yields a prefix of its input. -/
theorem rstripP_prefix (p : Char → Bool) (s : List Char) : rstripP p s <+: s := by
  unfold rstripP
  have h := List.dropWhile_suffix (l := s.reverse) p
  obtain ⟨u, hu⟩ := h
  refine ⟨u.reverse, ?_⟩
  have := congrArg List.reverse hu
  simpa using this

/-- `lstripP` yields a suffix of its input. -/
theorem lstripP_suffix (p : Char → Bool) (s : List Char) : lstripP p s <:+ s :=
  List.dropWhile_suffix p

/-- The last character surviving `rstripP` never satisfies the predicate. -/
theorem getLast?_rstripP (p : Char → Bool) (s : List Char) (c : Char)
    (h : (rstripP p s).getLast? = some c) : p c = false := by
  unfold rstripP at h
  rw [List.getLast?_reverse] at h
  exact head?_dropWhile_not p s.reverse c h

/-- The first character surviving `lstripP` never satisfies the predicate. -/
theorem head?_lstripP (p : Char → Bool) (s : List Char) (c : Char)
    (h : (lstripP p s).head? = some c) : p c = false :=
  head?_dropWhile_not p s c h

/-- `rstripP` is the identity when the last character does not satisfy the
predicate. -/
theorem rstripP_eq_self (p : Char → Bool) (s : List Char)
    (h : ∀ c, s.getLast? = some c → p c = false) : rstripP p s = s := by
  unfold rstripP
  rw [dropWhile_eq_self_of_head p s.reverse (by simpa [List.head?_reverse] using h)]
  simp

/-- `lstripP` is the identity when the head does not satisfy the predicate. -/
theorem lstripP_eq_self (p : Char → Bool) (s : List Char)
    (h : ∀ c, s.head? = some c → p c = false) : lstripP p s = s :=
  dropWhile_eq_self_of_head p s h

/-- `rstripP` distributes over an append. -/
theorem rstripP_append (p : Char → Bool) (u v : List Char) :
    rstripP p (u ++ v) =
      if rstripP p v = [] then rstripP p u else u ++ rstripP p v := by
  unfold rstripP
  rw [List.reverse_append, List.dropWhile_append]
  by_cases hv : (v.reverse.dropWhile p).isEmpty
  · rw [if_pos hv]
    rw [if_pos (by simpa [List.isEmpty_iff] using hv)]
  · rw [if_neg hv]
    rw [if_neg (by
      intro hc
      exact hv (by
        rw [List.isEmpty_iff]
        have := congrArg List.reverse hc
        simpa using this))]
    simp

/-- `rstripP` on a cons cell. -/
theorem rstripP_cons (p : Char → Bool) (c : Char) (l : List Char) :
    rstripP p (c :: l) =
      if rstripP p l = [] then (if p c then [] else [c]) else c :: rstripP p l := by
  have h := rstripP_append p [c] l
  simp only [List.singleton_append] at h
  rw [h]
  by_cases hl : rstripP p l = []
  · rw [if_pos hl, if_pos hl]
    show rstripP p [c] = _
    unfold rstripP
    by_cases hc : p c <;> simp [hc, List.dropWhile]
  · rw [if_neg hl, if_neg hl]

/-- `rstripP` is idempotent. -/
theorem rstripP_idem (p : Char → Bool) (s : List Char) :
    rstripP p (rstripP p s) = rstripP p s :=
  rstripP_eq_self p _ (getLast?_rstripP p s)

/-- The first character of a `stripL` output is not whitespace. -/
theorem head?_stripL (s : List Char) (c : Char)
    (h : (stripL s).head? = some c) : isWsC c = false := by
  unfold stripL at h
  rcases he : rstripP isWsC (lstripP isWsC s) with _ | ⟨d, t⟩
  · rw [he] at h
    simp at h
  · rw [he] at h
    simp at h
    subst h
    obtain ⟨u, hu⟩ := rstripP_prefix isWsC (lstripP isWsC s)
    rw [he] at hu
    apply head?_lstripP isWsC s
    rw [← hu]
    simp

/-- The last character of a `stripL` output is not whitespace. -/
theorem getLast?_stripL (s : List Char) (c : Char)
    (h : (stripL s).getLast? = some c) : isWsC c = false :=
  getLast?_rstripP isWsC _ c h

/-- `stripL` is idempotent. -/
theorem stripL_idem (s : List Char) : stripL (stripL s) = stripL s := by
  have h1 : lstripP isWsC (stripL s) = stripL s :=
    lstripP_eq_self _ _ (fun c hc => head?_stripL s c hc)
  show rstripP isWsC (lstripP isWsC (stripL s)) = stripL s
  rw [h1]
  show rstripP isWsC (rstripP isWsC (lstripP isWsC s)) = _
  exact rstripP_idem _ _

/-- `stripL` is the identity on strings without edge whitespace. -/
theorem stripL_eq_self (s : List Char)
    (h1 : ∀ c, s.head? = some c → isWsC c = false)
    (h2 : ∀ c, s.getLast? = some c → isWsC c = false) : stripL s = s := by
  unfold stripL
  rw [lstripP_eq_self _ _ h1, rstripP_eq_self _ _ h2]

/-- `stripL` output is an infix of the input. -/
theorem stripL_infix (s : List Char) : stripL s <:+: s :=
  (( rstripP_prefix isWsC (lstripP isWsC s)).isInfix).trans ( lstripP_suffix isWsC s).isInfix

/-- `splitNl` never returns the empty list of lines. -/
theorem splitNl_ne_nil (s : List Char) : splitNl s ≠ [] := by
  cases s with
  | nil => simp [splitNl]
  | cons c t =>
    unfold splitNl
    split
    · simp
    · rcases h : splitNl t with _ | ⟨h1, r⟩ <;> simp

/-- Unfolding equation of `joinNl` on a list with at least two lines. -/
theorem joinNl_cons_cons (l x : List Char) (ls : List (List Char)) :
    joinNl (l :: x :: ls) = l ++ nlc :: joinNl (x :: ls) := rfl

/-- Joining the lines of a split gives the string back. -/
theorem joinNl_splitNl (s : List Char) : joinNl (splitNl s) = s := by
  induction s with
  | nil => rfl
  | cons c t ih =>
    rcases h : splitNl t with _ | ⟨h1, r⟩
    · exact absurd h (splitNl_ne_nil t)
    unfold splitNl
    by_cases hc : c = nlc
    · rw [if_pos hc, h, hc]
      rw [h] at ih
      show [] ++ nlc :: joinNl (h1 :: r) = nlc :: t
      rw [ih]
      rfl
    · rw [if_neg hc, h]
      rw [h] at ih
      rcases r with _ | ⟨r1, r2⟩
      · show c :: h1 = c :: t
        have he : joinNl [h1] = h1 := rfl
        rw [he] at ih
        rw [ih]
      · show (c :: h1) ++ nlc :: joinNl (r1 :: r2) = c :: t
        rw [joinNl_cons_cons] at ih
        simp only [List.cons_append]
        rw [ih]

/-- Lines produced by `splitNl` contain no newline. -/
theorem mem_splitNl_no_nl (s : List Char) : ∀ l ∈ splitNl s, nlc ∉ l := by
  induction s with
  | nil =>
    intro l hl
    simp [splitNl] at hl
    simp [hl]
  | cons c t ih =>
    intro l hl
    rcases h : splitNl t with _ | ⟨h1, r⟩
    · exact absurd h (splitNl_ne_nil t)
    unfold splitNl at hl
    by_cases hc : c = nlc
    · rw [if_pos hc] at hl
      rcases List.mem_cons.mp hl with rfl | hl2
      · simp
      · exact ih l hl2
    · rw [if_neg hc, h] at hl
      rcases List.mem_cons.mp hl with rfl | hl2
      · intro hmem
        rcases List.mem_cons.mp hmem with heq | hmem2
        · exact hc heq.symm
        · exact ih h1 (by rw [h]; exact List.mem_cons_self _ _) hmem2
      · exact ih l (by rw [h]; exact List.mem_cons_of_mem _ hl2)

/-- The first line of a split is a prefix of the string. -/
theorem splitNl_head_prefix (s : List Char) :
    ∀ h r, splitNl s = h :: r → h <+: s := by
  induction s with
  | nil =>
    intro h r he
    simp [splitNl] at he
    simp [he.1]
  | cons c t ih =>
    intro h r he
    unfold splitNl at he
    by_cases hc : c = nlc
    · rw [if_pos hc] at he
      injection he with he1 he2
      rw [← he1]
      simp
    · rw [if_neg hc] at he
      rcases h2 : splitNl t with _ | ⟨h3, r2⟩
      · exact absurd h2 (splitNl_ne_nil t)
      · rw [h2] at he
        injection he with he1 he2
        rw [← he1]
        obtain ⟨u, hu⟩ := ih h3 r2 h2
        exact ⟨u, by simp [hu]⟩

/-- Every line of a split is an infix of the string. -/
theorem mem_splitNl_infix (s : List Char) : ∀ l ∈ splitNl s, l <:+: s := by
  induction s with
  | nil =>
    intro l hl
    simp [splitNl] at hl
    simp [hl]
  | cons c t ih =>
    intro l hl
    rcases h : splitNl t with _ | ⟨h1, r⟩
    · exact absurd h (splitNl_ne_nil t)
    unfold splitNl at hl
    by_cases hc : c = nlc
    · rw [if_pos hc] at hl
      rcases List.mem_cons.mp hl with rfl | hl2
      · simp
      · exact List.infix_cons_iff.mpr (Or.inr (ih l hl2))
    · rw [if_neg hc, h] at hl
      rcases List.mem_cons.mp hl with rfl | hl2
      · obtain ⟨u, hu⟩ := splitNl_head_prefix t h1 r h
        exact ⟨[], u, by simp [hu]⟩
      · exact List.infix_cons_iff.mpr
          (Or.inr (ih l (by rw [h]; exact List.mem_cons_of_mem _ hl2)))

/-- Splitting an append whose left half has no newline prepends it to the
first line of the right half's split. -/
theorem splitNl_append_no_nl (u v : List Char) (hu : nlc ∉ u) :
    ∀ h r, splitNl v = h :: r → splitNl (u ++ v) = (u ++ h) :: r := by
  induction u with
  | nil =>
    intro h r he
    simpa using he
  | cons c u' ih =>
    intro h r he
    have hc : c ≠ nlc := by
      intro hc
      exact hu (by simp [hc])
    have hu' : nlc ∉ u' := by
      intro hm
      exact hu (by simp [hm])
    show splitNl (c :: (u' ++ v)) = _
    unfold splitNl
    rw [if_neg hc, ih hu' h r he]
    rfl

/-- Splitting a joined list of newline-free lines gives the list back. -/
theorem splitNl_joinNl (L : List (List Char)) (hne : L ≠ [])
    (hnl : ∀ l ∈ L, nlc ∉ l) : splitNl (joinNl L) = L := by
  induction L with
  | nil => exact absurd rfl hne
  | cons l ls ih =>
    rcases ls with _ | ⟨l2, ls2⟩
    · show splitNl l = [l]
      have h1 := splitNl_append_no_nl l [] (hnl l (by simp)) [] [] rfl
      simpa using h1
    · have ihr : splitNl (joinNl (l2 :: ls2)) = l2 :: ls2 :=
        ih (by simp) (fun x hx => hnl x (List.mem_cons_of_mem _ hx))
      show splitNl (l ++ nlc :: joinNl (l2 :: ls2)) = l :: l2 :: ls2
      have hmid : splitNl (nlc :: joinNl (l2 :: ls2)) = [] :: l2 :: ls2 := by
        unfold splitNl
        rw [if_pos rfl, ihr]
      have h2 := splitNl_append_no_nl l (nlc :: joinNl (l2 :: ls2)) (hnl l (by simp))
        [] (l2 :: ls2) hmid
      simpa using h2

/-! ### Fence removal leaves no triple backtick -/

/-- The backtick character (ASCII 96). -/
def btickc : Char := Char.ofNat 96

/-- Length of the leading backtick run. -/
def lbt (l : List Char) : Nat := (l.takeWhile (fun c => c = btickc)).length

/-- The fence token is three backticks. -/
theorem fence3_eq : fence3 = [btickc, btickc, btickc] := by decide

/-- Leading-run length under a backtick head. -/
theorem lbt_cons_btick (l : List Char) : lbt (btickc :: l) = lbt l + 1 := by
  simp [lbt, List.takeWhile_cons]

/-- Leading-run length under a non-backtick head. -/
theorem lbt_cons_ne (c : Char) (l : List Char) (h : c ≠ btickc) :
    lbt (c :: l) = 0 := by
  simp [lbt, List.takeWhile_cons, h]

/-- A one-character prefix is the same as the head. -/
theorem singleton_prefix_iff_head? (c : Char) (l : List Char) :
    [c] <+: l ↔ l.head? = some c := by
  rcases l with _ | ⟨d, t⟩
  · simp
  · simp [List.cons_prefix_cons, eq_comm]

/-- One backtick leads a string exactly when its leading run is nonempty. -/
theorem one_btick_prefix_iff (l : List Char) :
    [btickc] <+: l ↔ 1 ≤ lbt l := by
  rcases l with _ | ⟨a, t⟩
  · simp [lbt]
  · by_cases ha : a = btickc
    · subst ha
      rw [lbt_cons_btick]
      simp [List.cons_prefix_cons]
    · rw [lbt_cons_ne a t ha]
      simp [List.cons_prefix_cons, ha, Ne.symm ha]

/-- Two backticks lead a string exactly when its leading run has length at
least two. -/
theorem two_bticks_prefix_iff (l : List Char) :
    [btickc, btickc] <+: l ↔ 2 ≤ lbt l := by
  rcases l with _ | ⟨a, t⟩
  · simp [lbt]
  · by_cases ha : a = btickc
    · subst ha
      rw [lbt_cons_btick]
      rw [show ([btickc, btickc] <+: btickc :: t) ↔ [btickc] <+: t by
        simp [List.cons_prefix_cons]]
      rw [one_btick_prefix_iff]
      omega
    · rw [lbt_cons_ne a t ha]
      simp [List.cons_prefix_cons, Ne.symm ha]

/-- A fence prefixing a backtick-headed string leaves two backticks on the
tail. -/
theorem fence3_prefix_cons (l : List Char) (h : fence3 <+: btickc :: l) :
    [btickc, btickc] <+: l := by
  rw [fence3_eq, List.cons_prefix_cons] at h
  exact h.2

/-- Two leading backticks on the tail extend to a fence prefix. -/
theorem fence3_prefix_of_two (l : List Char) (h : [btickc, btickc] <+: l) :
    fence3 <+: btickc :: l := by
  rw [fence3_eq, List.cons_prefix_cons]
  exact ⟨rfl, h⟩

/-- A fence prefix forces a backtick head. -/
theorem fence3_prefix_head (c : Char) (l : List Char) (h : fence3 <+: c :: l) :
    c = btickc := by
  rw [fence3_eq, List.cons_prefix_cons] at h
  exact h.1.symm

/-- A fence prefix forces a leading run of length at least three. -/
theorem fence3_prefix_le (l : List Char) (h : fence3 <+: l) : 3 ≤ lbt l := by
  rw [fence3_eq] at h
  rcases l with _ | ⟨a, t⟩
  · simp at h
  · rw [List.cons_prefix_cons] at h
    obtain ⟨rfl, h2⟩ := h
    rw [lbt_cons_btick]
    have := (two_bticks_prefix_iff t).mp h2
    omega

/-- After removing every fence token, the result contains no fence token and
its leading backtick run is at most two and no longer than the input's. -/
theorem replaceAll_fence3_free :
    ∀ s, ¬ fence3 <:+: replaceAll fence3 [] s ∧
      lbt (replaceAll fence3 [] s) ≤ 2 ∧
      lbt (replaceAll fence3 [] s) ≤ lbt s := by
  have hpat : fence3 ≠ [] := by decide
  have key : ∀ n (s : List Char), s.length ≤ n →
      ¬ fence3 <:+: replaceAll fence3 [] s ∧
      lbt (replaceAll fence3 [] s) ≤ 2 ∧
      lbt (replaceAll fence3 [] s) ≤ lbt s := by
    intro n
    induction n with
    | zero =>
      intro s hs
      have : s = [] := List.eq_nil_of_length_eq_zero (Nat.le_zero.mp hs)
      subst this
      rw [replaceAll_nil]
      refine ⟨?_, by simp [lbt], by simp [lbt]⟩
      rw [List.infix_nil]
      exact hpat
    | succ n ih =>
      intro s hs
      cases s with
      | nil =>
        rw [replaceAll_nil]
        refine ⟨?_, by simp [lbt], by simp [lbt]⟩
        rw [List.infix_nil]
        exact hpat
      | cons c t =>
        by_cases hp : fence3 <+: c :: t
        · rw [replaceAll_cons_pos [] hpat hp]
          rw [List.nil_append]
          have hdl : ((c :: t).drop fence3.length).length ≤ n := by
            rw [List.length_drop]
            have : fence3.length = 3 := by decide
            simp [this] at hs ⊢
            omega
          obtain ⟨h1, h2, h3⟩ := ih _ hdl
          refine ⟨h1, h2, ?_⟩
          have := fence3_prefix_le _ hp
          omega
        · rw [replaceAll_cons_neg [] hp]
          obtain ⟨h1, h2, h3⟩ := ih t (by simp at hs; omega)
          by_cases hc : c = btickc
          · subst hc
            have hlbt_t : lbt t ≤ 1 := by
              by_contra hcon
              push_neg at hcon
              have h2b : [btickc, btickc] <+: t := (two_bticks_prefix_iff t).mpr hcon
              exact hp (fence3_prefix_of_two t h2b)
            refine ⟨?_, ?_, ?_⟩
            · intro hocc
              rcases List.infix_cons_iff.mp hocc with hpre | hinf
              · have := (two_bticks_prefix_iff _).mp (fence3_prefix_cons _ hpre)
                omega
              · exact h1 hinf
            · rw [lbt_cons_btick]
              omega
            · rw [lbt_cons_btick, lbt_cons_btick]
              omega
          · refine ⟨?_, ?_, ?_⟩
            · intro hocc
              rcases List.infix_cons_iff.mp hocc with hpre | hinf
              · exact hc (fence3_prefix_head c _ hpre)
              · exact h1 hinf
            · rw [lbt_cons_ne c _ hc]
              omega
            · rw [lbt_cons_ne c _ hc]
              omega
  intro s
  exact key s.length s (Nat.le_refl _)

/-! ### Shape preservation of `replaceAll` needed line by line -/

/-- `replaceAll` with a nonempty replacement maps nonempty strings to
nonempty strings. -/
theorem replaceAll_ne_nil {pat : List Char} (repl : List Char)
    (hpat : pat ≠ []) (hrepl : repl ≠ []) (s : List Char) (hs : s ≠ []) :
    replaceAll pat repl s ≠ [] := by
  cases s with
  | nil => exact absurd rfl hs
  | cons c t =>
    by_cases hp : pat <+: c :: t
    · rw [replaceAll_cons_pos repl hpat hp]
      exact append_left_ne_nil _ hrepl
    · rw [replaceAll_cons_neg repl hp]
      simp

/-- The head of a `replaceAll` output is the head of the replacement or of
the input. -/
theorem replaceAll_head_cases {pat : List Char} (repl : List Char)
    (hpat : pat ≠ []) (hrepl : repl ≠ []) (s : List Char) :
    replaceAll pat repl s = [] ∨
    (replaceAll pat repl s).head? = repl.head? ∨
    (replaceAll pat repl s).head? = s.head? := by
  cases s with
  | nil => exact Or.inl (replaceAll_nil _ _)
  | cons c t =>
    by_cases hp : pat <+: c :: t
    · rw [replaceAll_cons_pos repl hpat hp]
      refine Or.inr (Or.inl ?_)
      rcases repl with _ | ⟨r0, rt⟩
      · exact absurd rfl hrepl
      · simp
    · rw [replaceAll_cons_neg repl hp]
      exact Or.inr (Or.inr (by simp))

/-- The last character of a `replaceAll` output is the last of the
replacement or of the input. -/
theorem replaceAll_getLast_cases {pat : List Char} (repl : List Char)
    (hpat : pat ≠ []) (hrepl : repl ≠ []) :
    ∀ s, replaceAll pat repl s = [] ∨
      (replaceAll pat repl s).getLast? = repl.getLast? ∨
      (replaceAll pat repl s).getLast? = s.getLast? := by
  have key : ∀ n (s : List Char), s.length ≤ n →
      replaceAll pat repl s = [] ∨
      (replaceAll pat repl s).getLast? = repl.getLast? ∨
      (replaceAll pat repl s).getLast? = s.getLast? := by
    intro n
    induction n with
    | zero =>
      intro s hs
      have : s = [] := List.eq_nil_of_length_eq_zero (Nat.le_zero.mp hs)
      subst this
      exact Or.inl (replaceAll_nil _ _)
    | succ n ih =>
      intro s hs
      cases s with
      | nil => exact Or.inl (replaceAll_nil _ _)
      | cons c t =>
        by_cases hp : pat <+: c :: t
        · rw [replaceAll_cons_pos repl hpat hp]
          obtain ⟨u, hu⟩ := hp
          have hdrop : (c :: t).drop pat.length = u := by
            rw [← hu, List.drop_left]
          rw [hdrop]
          by_cases hru : replaceAll pat repl u = []
          · rw [hru, List.append_nil]
            exact Or.inr (Or.inl rfl)
          · have hul : u.length ≤ n := by
              have h1 : 1 ≤ pat.length := by
                cases pat with
                | nil => exact absurd rfl hpat
                | cons a as => simp
              have := congrArg List.length hu
              simp at this hs
              omega
            rcases ih u hul with h1 | h2 | h3
            · exact absurd h1 hru
            · refine Or.inr (Or.inl ?_)
              rw [List.getLast?_append_of_ne_nil _ hru]
              exact h2
            · have hune : u ≠ [] := by
                intro he
                rw [he, replaceAll_nil] at hru
                exact hru rfl
              refine Or.inr (Or.inr ?_)
              rw [List.getLast?_append_of_ne_nil _ hru, h3, ← hu,
                List.getLast?_append_of_ne_nil _ hune]
        · rw [replaceAll_cons_neg repl hp]
          by_cases hrt : replaceAll pat repl t = []
          · have ht : t = [] := by
              cases t with
              | nil => rfl
              | cons d t' =>
                exact absurd (replaceAll_ne_nil repl hpat hrepl (d :: t') (by simp)) (by simp [hrt])
            subst ht
            rw [hrt]
            exact Or.inr (Or.inr rfl)
          · have htne : t ≠ [] := by
              intro he
              rw [he, replaceAll_nil] at hrt
              exact hrt rfl
            have hgc : ∀ (d : Char) (z : List Char), z ≠ [] →
                (d :: z).getLast? = z.getLast? := by
              intro d z hz
              have := List.getLast?_append_of_ne_nil [d] hz
              simpa using this
            rcases ih t (by simp at hs; omega) with h1 | h2 | h3
            · exact absurd h1 hrt
            · refine Or.inr (Or.inl ?_)
              rw [hgc c _ hrt]
              exact h2
            · refine Or.inr (Or.inr ?_)
              rw [hgc c _ hrt, h3, hgc c _ htne]
  intro s
  exact key s.length s (Nat.le_refl _)

/-- `replaceAll` with a replacement not starting with `/` cannot create a
leading `//` comment marker. -/
theorem replaceAll_no_ss {pat : List Char} (repl : List Char)
    (hpat : pat ≠ []) (hrepl : repl ≠ []) (hr0 : repl.head? ≠ some slashc) :
    ∀ s, ¬ slashSlash <+: s → ¬ slashSlash <+: replaceAll pat repl s := by
  intro s hno hocc
  cases s with
  | nil =>
    rw [replaceAll_nil] at hocc
    simp [slashSlash] at hocc
  | cons c t =>
    by_cases hp : pat <+: c :: t
    · rw [replaceAll_cons_pos repl hpat hp] at hocc
      have hhd : (repl ++ replaceAll pat repl ((c :: t).drop pat.length)).head? = repl.head? := by
        rcases repl with _ | ⟨r0, rt⟩
        · exact absurd rfl hrepl
        · simp
      have h1 : [slashc] <+: repl ++ replaceAll pat repl ((c :: t).drop pat.length) :=
        List.IsPrefix.trans
          (by simp [slashSlash, List.cons_prefix_cons] : [slashc] <+: slashSlash) hocc
      rw [singleton_prefix_iff_head?, hhd] at h1
      exact hr0 h1
    · rw [replaceAll_cons_neg repl hp] at hocc
      have hh : slashSlash = slashc :: [slashc] := rfl
      rw [hh, List.cons_prefix_cons] at hocc
      obtain ⟨h1, h2⟩ := hocc
      rw [singleton_prefix_iff_head?] at h2
      rcases replaceAll_head_cases repl hpat hrepl t with h3 | h4 | h5
      · rw [h3] at h2
        simp at h2
      · rw [h4] at h2
        exact hr0 h2
      · rw [h5] at h2
        apply hno
        rw [hh, ← h1, List.cons_prefix_cons]
        exact ⟨rfl, (singleton_prefix_iff_head? _ _).mpr h2⟩

/-! ### Line invariants of the sanitizer pipeline -/

/-- Invariant of every line the sanitizer can keep: stripped, nonempty, not
a `//` comment, free of explanation markers, newline-free and free of fence
tokens. -/
def GoodLine (l : List Char) : Prop :=
  stripL l = l ∧ l ≠ [] ∧ ¬ slashSlash <+: l ∧ anyMarker l = false ∧
    nlc ∉ l ∧ ¬ fence3 <:+: l

/-- The marker test fails exactly when no marker occurs in the lowercased
line. -/
theorem anyMarker_eq_false_iff (l : List Char) :
    anyMarker l = false ↔ ∀ μ ∈ markers, ¬ μ <:+: lowerL l := by
  rw [Bool.eq_false_iff, Ne]
  unfold anyMarker
  rw [List.any_eq_true]
  constructor
  · intro h μ hμ hocc
    exact h ⟨μ, hμ, (containsB_iff _ _).mpr hocc⟩
  · rintro h ⟨μ, hμ, hμ2⟩
    exact h μ hμ ((containsB_iff _ _).mp hμ2)

/-- A nonempty prefix determines the head. -/
theorem prefix_head?_eq {p z : List Char} (h : p <+: z) (hp : p ≠ []) :
    z.head? = p.head? := by
  obtain ⟨u, hu⟩ := h
  rcases p with _ | ⟨c, t⟩
  · exact absurd rfl hp
  · rw [← hu]
    simp

/-- Every line kept by `collectLines` is the strip of an input line, is
nonempty, is not a comment and carries no marker. -/
theorem collect_mem (ls : List (List Char)) :
    ∀ l ∈ collectLines ls, ∃ l0 ∈ ls, l = stripL l0 ∧ l ≠ [] ∧
      ¬ slashSlash <+: l ∧ anyMarker l = false := by
  induction ls with
  | nil =>
    intro l hl
    simp [collectLines] at hl
  | cons x xs ih =>
    intro l hl
    unfold collectLines at hl
    by_cases hm : anyMarker (stripL x) = true
    · rw [if_pos hm] at hl
      simp at hl
    · rw [if_neg hm] at hl
      by_cases hk : (!(stripL x).isEmpty && !isPrefixB slashSlash (stripL x)) = true
      · rw [if_pos hk] at hl
        rcases List.mem_cons.mp hl with rfl | hl2
        · refine ⟨x, by simp, rfl, ?_, ?_, by simpa using hm⟩
          · simp only [Bool.and_eq_true, Bool.not_eq_true'] at hk
            simpa [List.isEmpty_iff] using hk.1
          · simp only [Bool.and_eq_true, Bool.not_eq_true'] at hk
            intro hss
            rw [← isPrefixB_iff] at hss
            rw [hk.2] at hss
            exact Bool.false_ne_true hss
        · obtain ⟨l0, h0, h1⟩ := ih l hl2
          exact ⟨l0, List.mem_cons_of_mem _ h0, h1⟩
      · rw [if_neg hk] at hl
        obtain ⟨l0, h0, h1⟩ := ih l hl
        exact ⟨l0, List.mem_cons_of_mem _ h0, h1⟩

/-- `collectLines` is the identity on a list of good lines. -/
theorem collect_all_good (ls : List (List Char))
    (h : ∀ l ∈ ls, stripL l = l ∧ l ≠ [] ∧ ¬ slashSlash <+: l ∧ anyMarker l = false) :
    collectLines ls = ls := by
  induction ls with
  | nil => rfl
  | cons x xs ih =>
    obtain ⟨hs, hne, hss, hm⟩ := h x (by simp)
    unfold collectLines
    rw [hs, if_neg (by simp [hm]), if_pos (by
      simp only [Bool.and_eq_true, Bool.not_eq_true']
      constructor
      · simpa [List.isEmpty_iff] using hne
      · rw [← Bool.not_eq_true, isPrefixB_iff]
        exact hss)]
    rw [ih (fun l hl => h l (List.mem_cons_of_mem _ hl))]

/-- Every line collected from the fence-removal output is a good line. -/
theorem collect_good (x : List Char) :
    ∀ l ∈ collectLines (splitNl (removeFences x)), GoodLine l := by
  intro l hl
  obtain ⟨l0, h0, hst, hne, hss, hm⟩ := collect_mem _ l hl
  have hinf0 : l <:+: l0 := hst ▸ stripL_infix l0
  have hinfR : l <:+: removeFences x := hinf0.trans ( mem_splitNl_infix _ l0 h0)
  refine ⟨hst ▸ stripL_idem l0, hne, hss, hm, ?_, ?_⟩
  · intro hmem
    exact mem_splitNl_no_nl _ l0 h0 (hinf0.mem hmem)
  · intro hocc
    have h1 : fence3 <:+: removeFences x := hocc.trans hinfR
    unfold removeFences at h1
    have h2 : fence3 <:+: replaceAll fence3 [] (replaceAll fenceCy [] x) :=
      h1.trans ( stripL_infix _)
    exact (replaceAll_fence3_free _).1 h2

/-! ### The end-trimming of the joined lines -/

/-- Line-list view of the trailing `rstrip(';').strip()` of the sanitizer:
only the last line is affected; it loses its trailing semicolons and
whitespace and disappears entirely when nothing remains. -/
def endTrim : List (List Char) → List (List Char)
  | [] => []
  | [l] =>
    if rstripP isWsC (rstripSemi l) = [] then []
    else [rstripP isWsC (rstripSemi l)]
  | l :: l2 :: ls => l :: endTrim (l2 :: ls)

/-- A good-lined join is nonempty. -/
theorem joinNl_ne_nil (x : List Char) (xs : List (List Char)) (hx : x ≠ []) :
    joinNl (x :: xs) ≠ [] := by
  rcases xs with _ | ⟨y, ys⟩
  · exact hx
  · exact append_left_ne_nil _ hx

/-- The head of a join is the head of the first line when it is nonempty. -/
theorem head?_joinNl (x : List Char) (xs : List (List Char)) (hx : x ≠ []) :
    (joinNl (x :: xs)).head? = x.head? := by
  rcases xs with _ | ⟨y, ys⟩
  · rfl
  · show (x ++ nlc :: joinNl (y :: ys)).head? = x.head?
    rcases x with _ | ⟨c, t⟩
    · exact absurd rfl hx
    · simp

/-- The last character of a join of stripped nonempty lines is not
whitespace. -/
theorem getLast?_joinNl_non_ws (L : List (List Char))
    (h : ∀ l ∈ L, stripL l = l ∧ l ≠ []) :
    ∀ c, (joinNl L).getLast? = some c → isWsC c = false := by
  induction L with
  | nil =>
    intro c hc
    simp [joinNl] at hc
  | cons x xs ih =>
    intro c hc
    rcases xs with _ | ⟨y, ys⟩
    · obtain ⟨hs, _⟩ := h x (by simp)
      exact getLast?_stripL x c (by rwa [hs])
    · rw [joinNl_cons_cons] at hc
      have hne : joinNl (y :: ys) ≠ [] :=
        joinNl_ne_nil y ys (h y (by simp)).2
      rw [List.getLast?_append_of_ne_nil _ (by simp)] at hc
      have hgc : (nlc :: joinNl (y :: ys)).getLast? = (joinNl (y :: ys)).getLast? := by
        have := List.getLast?_append_of_ne_nil [nlc] hne
        simpa using this
      rw [hgc] at hc
      exact ih (fun l hl => h l (List.mem_cons_of_mem _ hl)) c hc

/-- A join of nonempty lines is empty only for the empty line list. -/
theorem joinNl_eq_nil_iff (L : List (List Char)) (h : ∀ l ∈ L, l ≠ []) :
    joinNl L = [] ↔ L = [] := by
  rcases L with _ | ⟨x, xs⟩
  · simp [joinNl]
  · constructor
    · intro he
      exact absurd he (joinNl_ne_nil x xs (h x (by simp)))
    · intro he
      simp at he

/-- `stripL` reduces to its right strip when the head is not whitespace. -/
theorem stripL_rstripP (z : List Char)
    (hhead : ∀ c, z.head? = some c → isWsC c = false) :
    stripL z = rstripP isWsC z := by
  unfold stripL
  rw [lstripP_eq_self _ _ hhead]

/-- The head surviving `rstripSemi` is the original head. -/
theorem head?_rstripSemi_non_ws (x : List Char) (hs : stripL x = x) :
    ∀ c, (rstripSemi x).head? = some c → isWsC c = false := by
  intro c hc
  have hpre : rstripSemi x <+: x := rstripP_prefix _ x
  have hne : rstripSemi x ≠ [] := by
    intro he
    rw [he] at hc
    simp at hc
  have := prefix_head?_eq hpre hne
  apply head?_stripL x
  rw [hs, this]
  exact hc

/-- The join of stripped nonempty lines is its own strip. -/
theorem stripL_joinNl_id (L : List (List Char)) (hne : L ≠ [])
    (h : ∀ l ∈ L, stripL l = l ∧ l ≠ []) :
    stripL (joinNl L) = joinNl L := by
  rcases L with _ | ⟨x, xs⟩
  · exact absurd rfl hne
  · apply stripL_eq_self
    · intro c hc
      rw [head?_joinNl x xs (h x (by simp)).2] at hc
      apply head?_stripL x
      rw [(h x (by simp)).1]
      exact hc
    · exact getLast?_joinNl_non_ws _ h

/-- Lines surviving `endTrim` are nonempty when the input lines are. -/
theorem endTrim_members_ne_nil (L : List (List Char)) (h : ∀ l ∈ L, l ≠ []) :
    ∀ l ∈ endTrim L, l ≠ [] := by
  induction L with
  | nil =>
    intro l hl
    simp [endTrim] at hl
  | cons x xs ih =>
    rcases xs with _ | ⟨y, ys⟩
    · intro l hl
      unfold endTrim at hl
      by_cases he : rstripP isWsC (rstripSemi x) = []
      · rw [if_pos he] at hl
        simp at hl
      · rw [if_neg he] at hl
        rcases List.mem_cons.mp hl with rfl | h2
        · exact he
        · simp at h2
    · intro l hl
      rcases List.mem_cons.mp hl with rfl | h2
      · exact h l (by simp)
      · exact ih (fun z hz => h z (List.mem_cons_of_mem _ hz)) l h2

/-- `endTrim` preserves the good-line invariant. -/
theorem endTrim_good (L : List (List Char)) (h : ∀ l ∈ L, GoodLine l) :
    ∀ l ∈ endTrim L, GoodLine l := by
  induction L with
  | nil =>
    intro l hl
    simp [endTrim] at hl
  | cons x xs ih =>
    rcases xs with _ | ⟨y, ys⟩
    · intro l hl
      unfold endTrim at hl
      by_cases he : rstripP isWsC (rstripSemi x) = []
      · rw [if_pos he] at hl
        simp at hl
      · rw [if_neg he] at hl
        rcases List.mem_cons.mp hl with rfl | h2
        · obtain ⟨hs, hne, hss, hm, hnl, hf⟩ := h x (by simp)
          have hpre : rstripP isWsC (rstripSemi x) <+: x :=
            ( rstripP_prefix _ _).trans ( rstripP_prefix _ _)
          refine ⟨?_, he, ?_, ?_, ?_, ?_⟩
          · apply stripL_eq_self
            · intro c hc
              apply head?_stripL x
              rw [hs, prefix_head?_eq hpre he]
              exact hc
            · exact getLast?_rstripP _ _
          · intro hssx
            exact hss (hssx.trans hpre)
          · rw [anyMarker_eq_false_iff]
            intro μ hμ hocc
            have hmap : lowerL (rstripP isWsC (rstripSemi x)) <+: lowerL x := hpre.map lowerChar
            exact (anyMarker_eq_false_iff x).mp hm μ hμ (hocc.trans hmap.isInfix)
          · intro hmem
            exact hnl (hpre.subset hmem)
          · intro hocc
            exact hf (hocc.trans hpre.isInfix)
        · simp at h2
    · intro l hl
      rcases List.mem_cons.mp hl with rfl | h2
      · exact h l (by simp)
      · exact ih (fun z hz => h z (List.mem_cons_of_mem _ hz)) l h2

/-- The trailing `rstrip(';').strip()` of the sanitizer acts on the joined
lines exactly as `endTrim` acts on the line list. -/
theorem endTrim_spec (L : List (List Char))
    (h : ∀ l ∈ L, stripL l = l ∧ l ≠ []) :
    stripL (rstripSemi (stripL (joinNl L))) = joinNl (endTrim L) := by
  induction L with
  | nil => rfl
  | cons x xs ih =>
    rcases xs with _ | ⟨y, ys⟩
    · obtain ⟨hs, hne⟩ := h x (by simp)
      have hj : joinNl [x] = x := rfl
      rw [hj, hs]
      rw [stripL_rstripP _ (head?_rstripSemi_non_ws x hs)]
      unfold endTrim
      by_cases he : rstripP isWsC (rstripSemi x) = []
      · rw [if_pos he, he]
        rfl
      · rw [if_neg he]
        rfl
    · have hstrip1 : stripL (joinNl (x :: y :: ys)) = joinNl (x :: y :: ys) :=
        stripL_joinNl_id _ (by simp) h
      rw [hstrip1]
      have htail : ∀ l ∈ y :: ys, stripL l = l ∧ l ≠ [] :=
        fun l hl => h l (List.mem_cons_of_mem _ hl)
      have hIH := ih htail
      have hJstrip : stripL (joinNl (y :: ys)) = joinNl (y :: ys) :=
        stripL_joinNl_id _ (by simp) htail
      rw [hJstrip] at hIH
      have hJne : joinNl (y :: ys) ≠ [] := joinNl_ne_nil y ys (h y (by simp)).2
      obtain ⟨hsx, hnex⟩ := h x (by simp)
      have hxlast : ∀ c, x.getLast? = some c → isWsC c = false := by
        intro c hc
        apply getLast?_stripL x
        rw [hsx]
        exact hc
      have hrwx : rstripP isWsC x = x := rstripP_eq_self _ _ hxlast
      have hjoin : joinNl (x :: y :: ys) = (x ++ [nlc]) ++ joinNl (y :: ys) := by
        rw [joinNl_cons_cons]
        simp
      rw [hjoin]
      have hsemi : rstripSemi ((x ++ [nlc]) ++ joinNl (y :: ys)) =
          if rstripSemi (joinNl (y :: ys)) = [] then rstripSemi (x ++ [nlc])
          else (x ++ [nlc]) ++ rstripSemi (joinNl (y :: ys)) :=
        rstripP_append _ _ _
      have hsemix : rstripSemi (x ++ [nlc]) = x ++ [nlc] := by
        apply rstripP_eq_self
        intro c hc
        rw [List.getLast?_append_of_ne_nil _ (by simp : [nlc] ≠ [])] at hc
        simp at hc
        rw [← hc]
        decide
      have hheadx : ∀ (z : List Char) , ∀ c, ((x ++ [nlc]) ++ z).head? = some c →
          isWsC c = false := by
        intro z c hc
        rcases x with _ | ⟨x0, xt⟩
        · exact absurd rfl hnex
        · simp at hc
          apply head?_stripL (x0 :: xt)
          rw [hsx]
          simp [hc]
      have hE := endTrim_members_ne_nil (y :: ys) (fun l hl => (h l (List.mem_cons_of_mem _ hl)).2)
      by_cases hrsJ : rstripSemi (joinNl (y :: ys)) = []
      · rw [hsemi, if_pos hrsJ, hsemix]
        have hArm : stripL (x ++ [nlc]) = x := by
          rw [stripL_rstripP _ (by
            intro c hc
            exact hheadx [] c (by simpa using hc))]
          rw [rstripP_append]
          rw [if_pos (by decide : rstripP isWsC [nlc] = [])]
          exact hrwx
        rw [hArm]
        have hE' : endTrim (y :: ys) = [] := by
          rw [← joinNl_eq_nil_iff _ hE, ← hIH]
          rw [hrsJ]
          rfl
        show _ = joinNl (x :: endTrim (y :: ys))
        rw [hE']
        rfl
      · rw [hsemi, if_neg hrsJ]
        have hheadJ : ∀ c, (rstripSemi (joinNl (y :: ys))).head? = some c →
            isWsC c = false :=
          head?_rstripSemi_non_ws _ hJstrip
        by_cases hrw : rstripP isWsC (rstripSemi (joinNl (y :: ys))) = []
        · have hArm : stripL ((x ++ [nlc]) ++ rstripSemi (joinNl (y :: ys))) = x := by
            rw [stripL_rstripP _ (hheadx _)]
            rw [rstripP_append, if_pos hrw, rstripP_append,
              if_pos (by decide : rstripP isWsC [nlc] = [])]
            exact hrwx
          rw [hArm]
          have hE' : endTrim (y :: ys) = [] := by
            rw [← joinNl_eq_nil_iff _ hE, ← hIH]
            rw [stripL_rstripP _ hheadJ]
            exact hrw
          show _ = joinNl (x :: endTrim (y :: ys))
          rw [hE']
          rfl
        · have hArm : stripL ((x ++ [nlc]) ++ rstripSemi (joinNl (y :: ys))) =
              (x ++ [nlc]) ++ rstripP isWsC (rstripSemi (joinNl (y :: ys))) := by
            rw [stripL_rstripP _ (hheadx _)]
            rw [rstripP_append, if_neg hrw]
          rw [hArm]
          have hKE : joinNl (endTrim (y :: ys)) =
              rstripP isWsC (rstripSemi (joinNl (y :: ys))) := by
            rw [← hIH, stripL_rstripP _ hheadJ]
          rcases hEe : endTrim (y :: ys) with _ | ⟨e, es⟩
          · exfalso
            rw [hEe] at hKE
            exact hrw (by rw [← hKE]; rfl)
          · show _ = joinNl (x :: endTrim (y :: ys))
            rw [hEe, joinNl_cons_cons, ← hEe, hKE]
            simp

/-- Every character of a `replaceAll` output comes from the input or the
replacement. -/
theorem mem_of_mem_replaceAll {pat : List Char} (repl : List Char) (hpat : pat ≠ []) :
    ∀ s c, c ∈ replaceAll pat repl s → c ∈ s ∨ c ∈ repl := by
  have key : ∀ n (s : List Char), s.length ≤ n → ∀ c, c ∈ replaceAll pat repl s →
      c ∈ s ∨ c ∈ repl := by
    intro n
    induction n with
    | zero =>
      intro s hs c hc
      have hz : s = [] := List.length_eq_zero.mp (Nat.le_zero.mp hs)
      subst hz
      rw [replaceAll_nil] at hc
      simp at hc
    | succ n ih =>
      intro s hs c hc
      cases s with
      | nil =>
        rw [replaceAll_nil] at hc
        simp at hc
      | cons a t =>
        by_cases hp : pat <+: a :: t
        · rw [replaceAll_cons_pos repl hpat hp] at hc
          rcases List.mem_append.mp hc with h | h
          · exact Or.inr h
          · have hlen : ((a :: t).drop pat.length).length ≤ n := by
              rcases pat with _ | ⟨p0, pt⟩
              · exact absurd rfl hpat
              · simp at hs ⊢
                omega
            rcases ih _ hlen c h with h2 | h2
            · exact Or.inl ((List.drop_suffix _ _).subset h2)
            · exact Or.inr h2
        · rw [replaceAll_cons_neg repl hp] at hc
          rcases List.mem_cons.mp hc with h | h
          · exact Or.inl (h ▸ List.mem_cons_self a t)
          · simp at hs
            rcases ih t (by omega) c h with h2 | h2
            · exact Or.inl (List.mem_cons_of_mem a h2)
            · exact Or.inr h2
  intro s c hc
  exact key s.length s (Nat.le_refl _) c hc

/-- `replaceAll` with a newline-free pattern never matches across a newline,
so it distributes over the two sides of a separator. -/
theorem replaceAll_append_nl {pat : List Char} (repl : List Char)
    (hpat : pat ≠ []) (hnl : nlc ∉ pat) (v : List Char) :
    ∀ u, replaceAll pat repl (u ++ nlc :: v) =
      replaceAll pat repl u ++ nlc :: replaceAll pat repl v := by
  have hbase : replaceAll pat repl (nlc :: v) = nlc :: replaceAll pat repl v := by
    apply replaceAll_cons_neg
    intro hp
    rcases pat with _ | ⟨p0, pt⟩
    · exact hpat rfl
    · rw [List.cons_prefix_cons] at hp
      apply hnl
      rw [← hp.1]
      exact List.mem_cons_self _ _
  have key : ∀ n (u : List Char), u.length ≤ n →
      replaceAll pat repl (u ++ nlc :: v) =
        replaceAll pat repl u ++ nlc :: replaceAll pat repl v := by
    intro n
    induction n with
    | zero =>
      intro u hu
      have hz : u = [] := List.length_eq_zero.mp (Nat.le_zero.mp hu)
      subst hz
      show replaceAll pat repl (nlc :: v) = replaceAll pat repl [] ++ nlc :: replaceAll pat repl v
      rw [hbase, replaceAll_nil]
      rfl
    | succ n ih =>
      intro u hu
      cases u with
      | nil =>
        show replaceAll pat repl (nlc :: v) = replaceAll pat repl [] ++ nlc :: replaceAll pat repl v
        rw [hbase, replaceAll_nil]
        rfl
      | cons c u' =>
        by_cases hp : pat <+: (c :: u') ++ nlc :: v
        · have hlen : pat.length ≤ (c :: u').length := by
            by_contra hgt
            push_neg at hgt
            have hpt := List.prefix_iff_eq_take.mp hp
            rw [List.take_append_eq_append_take] at hpt
            have h1 : (c :: u').take pat.length = c :: u' :=
              List.take_of_length_le (Nat.le_of_lt hgt)
            obtain ⟨m, hm⟩ : ∃ m, pat.length - (c :: u').length = m + 1 :=
              ⟨pat.length - (c :: u').length - 1, by simp at hgt ⊢; omega⟩
            rw [h1, hm] at hpt
            apply hnl
            rw [hpt]
            simp [List.take_succ_cons]
          have hp' : pat <+: c :: u' := by
            have hpt := List.prefix_iff_eq_take.mp hp
            rw [List.take_append_eq_append_take] at hpt
            have h0 : pat.length - (c :: u').length = 0 := by omega
            rw [h0] at hpt
            simp at hpt
            exact List.prefix_iff_eq_take.mpr hpt
          have hdrop : (c :: (u' ++ nlc :: v)).drop pat.length =
              ((c :: u').drop pat.length) ++ nlc :: v := by
            rw [← List.cons_append, List.drop_append_eq_append_drop]
            have h0 : pat.length - (c :: u').length = 0 := by omega
            rw [h0]
            simp
          have hlen2 : ((c :: u').drop pat.length).length ≤ n := by
            rcases pat with _ | ⟨p0, pt⟩
            · exact absurd rfl hpat
            · simp at hu ⊢
              omega
          have hpa : pat <+: c :: (u' ++ nlc :: v) := hp
          rw [List.cons_append, replaceAll_cons_pos repl hpat hpa,
            replaceAll_cons_pos repl hpat hp', hdrop, ih _ hlen2]
          simp
        · have hp2 : ¬ pat <+: c :: u' := fun h => hp (h.trans (List.prefix_append _ _))
          have hu' : u'.length ≤ n := by
            simp at hu
            omega
          have hpa : ¬ pat <+: c :: (u' ++ nlc :: v) := hp
          rw [List.cons_append, replaceAll_cons_neg repl hpa, replaceAll_cons_neg repl hp2,
            ih u' hu']
          simp
  intro u
  exact key u.length u (Nat.le_refl _)

/-- `replaceAll` with a newline-free pattern acts line by line on a join. -/
theorem replaceAll_joinNl {pat : List Char} (repl : List Char)
    (hpat : pat ≠ []) (hnl : nlc ∉ pat) :
    ∀ E : List (List Char), replaceAll pat repl (joinNl E) =
      joinNl (E.map (replaceAll pat repl)) := by
  intro E
  induction E with
  | nil => rfl
  | cons x xs ih =>
    rcases xs with _ | ⟨y, ys⟩
    · rfl
    · rw [joinNl_cons_cons, replaceAll_append_nl repl hpat hnl, ih]
      rfl

/-- A newline-free infix of a join lies inside one of the lines. -/
theorem infix_joinNl {t : List Char} (ht : t ≠ []) (hnl : nlc ∉ t) :
    ∀ L : List (List Char), t <:+: joinNl L → ∃ l ∈ L, t <:+: l := by
  intro L
  induction L with
  | nil =>
    intro h
    simp [joinNl] at h
    exact absurd h ht
  | cons x xs ih =>
    rcases xs with _ | ⟨y, ys⟩
    · intro h
      exact ⟨x, by simp, h⟩
    · intro h
      rw [joinNl_cons_cons] at h
      rcases infix_append_cases h with h1 | h1 | h1
      · exact ⟨x, by simp, h1⟩
      · have h2 : t <:+: [nlc] ++ joinNl (y :: ys) := by simpa using h1
        rcases infix_append_cases h2 with h3 | h3 | h3
        · exfalso
          rcases t with _ | ⟨t0, tt⟩
          · exact ht rfl
          · have hm : t0 ∈ [nlc] := h3.subset (List.mem_cons_self _ _)
            simp at hm
            apply hnl
            rw [← hm]
            exact List.mem_cons_self _ _
        · obtain ⟨l, hl, h4⟩ := ih h3
          exact ⟨l, List.mem_cons_of_mem _ hl, h4⟩
        · exfalso
          obtain ⟨a, b, hab, hane, hbne, ha, hb⟩ := h3
          have haeq : a = [nlc] := by
            rcases ha with ⟨p, hpp⟩
            rcases a with _ | ⟨a0, at'⟩
            · exact absurd rfl hane
            · have hlen := congrArg List.length hpp
              simp at hlen
              obtain ⟨hp0, ha0⟩ : p = [] ∧ at' = [] := by
                constructor <;> apply List.length_eq_zero.mp <;> omega
              subst hp0
              subst ha0
              simpa using hpp
          apply hnl
          rw [hab, haeq]
          simp
      · exfalso
        obtain ⟨a, b, hab, hane, hbne, ha, hb⟩ := h1
        rcases b with _ | ⟨b0, bt⟩
        · exact hbne rfl
        · rw [List.cons_prefix_cons] at hb
          apply hnl
          rw [hab, ← hb.1]
          simp

/-- `replaceAll_no_new` specialised to the identity map, with the bounded
side conditions in decide-friendly argument order. -/
theorem replaceAll_no_new_id {pat : List Char} (repl t : List Char)
    (hpat : pat ≠ []) (ht : t ≠ []) (hlen : t.length ≤ repl.length)
    (hrepl : ¬ t <:+: repl)
    (hspan : ∀ n, n < t.length → 0 < n → ¬ ((t.take n) <:+ repl))
    (hsc : ∀ n, n < t.length → ¬ ((t.drop n) <+: repl)) :
    ∀ s, ¬ t <:+: s → ¬ t <:+: replaceAll pat repl s := by
  intro s hs
  have h := replaceAll_no_new id repl t hpat ht hlen
    (by simpa using hrepl)
    (by intro n h1 h2; simpa using hspan n h2 h1)
    (by intro n h1; simpa using hsc n h1)
    s (by simpa using hs)
  simpa using h

/-- A substitution whose replacement is a nonempty, non-whitespace-edged,
newline-free, fence-free, marker-free string maps good lines to good
lines. -/
theorem good_replace (pat rep : List Char) (hpat : pat ≠ []) (hrep : rep ≠ [])
    (hh : rep.head?.map isWsC = some false)
    (hl2 : rep.getLast?.map isWsC = some false)
    (h0 : rep.head? ≠ some slashc)
    (hnlr : nlc ∉ rep)
    (hflen : fence3.length ≤ rep.length)
    (hf1 : ¬ fence3 <:+: rep)
    (hf2 : ∀ n, n < fence3.length → 0 < n → ¬ ((fence3.take n) <:+ rep))
    (hf3 : ∀ n, n < fence3.length → ¬ ((fence3.drop n) <+: rep))
    (hmkpres : ∀ l', anyMarker l' = false → anyMarker (replaceAll pat rep l') = false)
    (l : List Char) (hg : GoodLine l) : GoodLine (replaceAll pat rep l) := by
  obtain ⟨hs, hne, hss, hm, hnl, hfen⟩ := hg
  have hne' : replaceAll pat rep l ≠ [] := replaceAll_ne_nil rep hpat hrep l hne
  refine ⟨?_, hne', ?_, ?_, ?_, ?_⟩
  · apply stripL_eq_self
    · intro c hc
      rcases replaceAll_head_cases rep hpat hrep l with h | h | h
      · exact absurd h hne'
      · rw [h] at hc
        rw [hc] at hh
        simp at hh
        exact hh
      · rw [h] at hc
        apply head?_stripL l
        rw [hs]
        exact hc
    · intro c hc
      rcases replaceAll_getLast_cases rep hpat hrep l with h | h | h
      · exact absurd h hne'
      · rw [h] at hc
        rw [hc] at hl2
        simp at hl2
        exact hl2
      · rw [h] at hc
        apply getLast?_stripL l
        rw [hs]
        exact hc
  · exact replaceAll_no_ss rep hpat hrep h0 l hss
  · exact hmkpres l hm
  · intro hmem
    rcases mem_of_mem_replaceAll rep hpat l nlc hmem with h | h
    · exact hnl h
    · exact hnlr h
  · exact replaceAll_no_new_id rep fence3 hpat (by decide) hflen hf1 hf2 hf3 l hfen

/-- The first scoping rule's substitution never creates a marker occurrence. -/
theorem anyMarker_pres1 (l : List Char) (hm : anyMarker l = false) :
    anyMarker (replaceAll sc1pat sc1rep l) = false := by
  rw [anyMarker_eq_false_iff]
  intro μ hμ
  have hall : ∀ μ' ∈ markers, μ' ≠ [] ∧ μ'.length ≤ sc1rep.length ∧
      ¬ μ' <:+: sc1rep.map lowerChar ∧
      (∀ n, n < μ'.length → 0 < n → ¬ ((μ'.take n) <:+ sc1rep.map lowerChar)) ∧
      (∀ n, n < μ'.length → ¬ ((μ'.drop n) <+: sc1rep.map lowerChar)) := by
    decide
  obtain ⟨hμne, hμlen, hμ1, hμ2, hμ3⟩ := hall μ hμ
  exact replaceAll_no_new lowerChar sc1rep μ (by decide) hμne hμlen hμ1
    (fun n a b => hμ2 n b a) hμ3 l ((anyMarker_eq_false_iff l).mp hm μ hμ)

/-- The second scoping rule only flips letter case, so the lowercased line and
therefore the marker test are unchanged. -/
theorem anyMarker_pres2 (l : List Char) (hm : anyMarker l = false) :
    anyMarker (replaceAll sc2pat sc2rep l) = false := by
  have hmap : lowerL (replaceAll sc2pat sc2rep l) = lowerL l :=
    replaceAll_map_eq lowerChar sc2rep (by decide) (by decide) l
  unfold anyMarker at hm ⊢
  rw [hmap]
  exact hm

/-- The first scoping rule's substitution preserves good lines. -/
theorem good_replace1 (l : List Char) (hg : GoodLine l) :
    GoodLine (replaceAll sc1pat sc1rep l) :=
  good_replace sc1pat sc1rep (by decide) (by decide) (by decide) (by decide)
    (by decide) (by decide) (by decide) (by decide) (by decide) (by decide)
    anyMarker_pres1 l hg

/-- The second scoping rule's substitution preserves good lines. -/
theorem good_replace2 (l : List Char) (hg : GoodLine l) :
    GoodLine (replaceAll sc2pat sc2rep l) :=
  good_replace sc2pat sc2rep (by decide) (by decide) (by decide) (by decide)
    (by decide) (by decide) (by decide) (by decide) (by decide) (by decide)
    anyMarker_pres2 l hg

/-- `fixStep1` maps a join of good lines to a join of good lines. -/
theorem fixStep1_joinNl (E : List (List Char)) (hne : E ≠ [])
    (hg : ∀ l ∈ E, GoodLine l) :
    ∃ E2, fixStep1 (joinNl E) = joinNl E2 ∧ E2 ≠ [] ∧ ∀ l ∈ E2, GoodLine l := by
  by_cases hc : (containsB (joinNl E) sc1pat && containsB (joinNl E) sc1alias) = true
  · refine ⟨E.map (replaceAll sc1pat sc1rep), ?_, ?_, ?_⟩
    · unfold fixStep1
      rw [if_pos hc]
      exact replaceAll_joinNl sc1rep (by decide) (by decide) E
    · simpa using hne
    · intro l hl
      rw [List.mem_map] at hl
      obtain ⟨l0, hl0, rfl⟩ := hl
      exact good_replace1 l0 (hg l0 hl0)
  · refine ⟨E, ?_, hne, hg⟩
    unfold fixStep1
    rw [if_neg hc]

/-- `fixStep2` maps a join of good lines to a join of good lines. -/
theorem fixStep2_joinNl (E : List (List Char)) (hne : E ≠ [])
    (hg : ∀ l ∈ E, GoodLine l) :
    ∃ E2, fixStep2 (joinNl E) = joinNl E2 ∧ E2 ≠ [] ∧ ∀ l ∈ E2, GoodLine l := by
  by_cases hc : (containsB (joinNl E) sc2pat && containsB (joinNl E) sc2alias) = true
  · refine ⟨E.map (replaceAll sc2pat sc2rep), ?_, ?_, ?_⟩
    · unfold fixStep2
      rw [if_pos hc]
      exact replaceAll_joinNl sc2rep (by decide) (by decide) E
    · simpa using hne
    · intro l hl
      rw [List.mem_map] at hl
      obtain ⟨l0, hl0, rfl⟩ := hl
      exact good_replace2 l0 (hg l0 hl0)
  · refine ⟨E, ?_, hne, hg⟩
    unfold fixStep2
    rw [if_neg hc]

/-- The whole scoping fix maps a join of good lines to a join of good lines. -/
theorem fix_scoping_joinNl (E : List (List Char)) (hne : E ≠ [])
    (hg : ∀ l ∈ E, GoodLine l) :
    ∃ E2, fix_cypher_scoping (joinNl E) = joinNl E2 ∧ E2 ≠ [] ∧
      ∀ l ∈ E2, GoodLine l := by
  obtain ⟨E1, h1, hne1, hg1⟩ := fixStep1_joinNl E hne hg
  obtain ⟨E2, h2, hne2, hg2⟩ := fixStep2_joinNl E1 hne1 hg1
  refine ⟨E2, ?_, hne2, hg2⟩
  show fixStep2 (fixStep1 (joinNl E)) = joinNl E2
  rw [h1, h2]

/-- The Sanitizer's line-processing core is the identity on a join of good
lines that does not end with a semicolon. -/
theorem cleanCore_id_of_good (E : List (List Char)) (hne : E ≠ [])
    (hg : ∀ l ∈ E, GoodLine l)
    (hsemi : (joinNl E).getLast? ≠ some semic) :
    cleanCore (joinNl E) = joinNl E := by
  have hnlE : ∀ l ∈ E, nlc ∉ l := fun l hl => (hg l hl).2.2.2.2.1
  have hstr : ∀ l ∈ E, stripL l = l ∧ l ≠ [] :=
    fun l hl => ⟨(hg l hl).1, (hg l hl).2.1⟩
  have hsid : stripL (joinNl E) = joinNl E := stripL_joinNl_id E hne hstr
  have hnofence : ¬ fence3 <:+: joinNl E := by
    intro h
    obtain ⟨l, hl, hocc⟩ := infix_joinNl (by decide) (by decide) E h
    exact (hg l hl).2.2.2.2.2 hocc
  have hnofenceCy : ¬ fenceCy <:+: joinNl E := by
    intro h
    exact hnofence (((by decide : fence3 <+: fenceCy)).isInfix.trans h)
  have hrf : removeFences (joinNl E) = joinNl E := by
    unfold removeFences
    rw [replaceAll_eq_self [] (joinNl E) hnofenceCy,
      replaceAll_eq_self [] (joinNl E) hnofence, hsid]
  have hsplit : splitNl (joinNl E) = E := splitNl_joinNl E hne hnlE
  have hcoll : collectLines E = E := collect_all_good E (fun l hl =>
    ⟨(hg l hl).1, (hg l hl).2.1, (hg l hl).2.2.1, (hg l hl).2.2.2.1⟩)
  have hrsemi : rstripSemi (joinNl E) = joinNl E :=
    rstripP_eq_self _ _ (by
      intro c hc
      have hcs : c ≠ semic := by
        rintro rfl
        exact hsemi hc
      simp [hcs])
  unfold cleanCore
  rw [hrf, hsplit, hcoll, hsid, hrsemi, hsid]

/-- `fixStep2` is idempotent. -/
theorem fixStep2_idem (z : List Char) : fixStep2 (fixStep2 z) = fixStep2 z := by
  have hspan2 : ∀ n, n < sc2pat.length → 0 < n → ¬ ((sc2pat.take n) <:+ sc2rep) := by
    decide
  have hsc2 : ∀ n, n < sc2pat.length → ¬ ((sc2pat.drop n) <+: sc2rep) := by
    decide
  set Y := fixStep2 z with hY
  by_cases hcond : (containsB z sc2pat && containsB z sc2alias) = true
  · have hyeq : Y = replaceAll sc2pat sc2rep z := by
      rw [hY]
      unfold fixStep2
      rw [if_pos hcond]
    have hfree : ¬ sc2pat <:+: Y := by
      rw [hyeq]
      exact replaceAll_pat_free sc2rep (by decide) (by decide) (by decide)
        (fun n a b => hspan2 n b a) hsc2 z
    have hcb : containsB Y sc2pat = false := by
      rw [← Bool.not_eq_true, containsB_iff]
      exact hfree
    unfold fixStep2
    rw [if_neg (by simp [hcb])]
  · have hyeq : Y = z := by
      rw [hY]
      unfold fixStep2
      rw [if_neg hcond]
    rw [hyeq]
    unfold fixStep2
    rw [if_neg hcond]

/-- `fixStep1` is the identity on the output of the whole scoping fix. -/
theorem fixStep1_after_fix (w : List Char) :
    fixStep1 (fixStep2 (fixStep1 w)) = fixStep2 (fixStep1 w) := by
  have hspan1 : ∀ n, n < sc1pat.length → 0 < n → ¬ ((sc1pat.take n) <:+ sc1rep) := by
    decide
  have hsc1 : ∀ n, n < sc1pat.length → ¬ ((sc1pat.drop n) <+: sc1rep) := by
    decide
  set Z := fixStep1 w with hZ
  set Y := fixStep2 Z with hY
  by_cases hcond1 : (containsB w sc1pat && containsB w sc1alias) = true
  · have hzeq : Z = replaceAll sc1pat sc1rep w := by
      rw [hZ]
      unfold fixStep1
      rw [if_pos hcond1]
    have hfree1 : ¬ sc1pat <:+: Z := by
      rw [hzeq]
      exact replaceAll_pat_free sc1rep (by decide) (by decide) (by decide)
        (fun n a b => hspan1 n b a) hsc1 w
    have hfree1y : ¬ sc1pat <:+: Y := by
      by_cases hcond2 : (containsB Z sc2pat && containsB Z sc2alias) = true
      · have hyeq : Y = replaceAll sc2pat sc2rep Z := by
          rw [hY]
          unfold fixStep2
          rw [if_pos hcond2]
        rw [hyeq]
        exact replaceAll_no_new_id sc2rep sc1pat (by decide) (by decide) (by decide)
          (by decide) (by decide) (by decide) Z hfree1
      · have hyeq : Y = Z := by
          rw [hY]
          unfold fixStep2
          rw [if_neg hcond2]
        rw [hyeq]
        exact hfree1
    have hcb : containsB Y sc1pat = false := by
      rw [← Bool.not_eq_true, containsB_iff]
      exact hfree1y
    unfold fixStep1
    rw [if_neg (by simp [hcb])]
  · have hzeq : Z = w := by
      rw [hZ]
      unfold fixStep1
      rw [if_neg hcond1]
    by_cases hA : containsB w sc1pat = true
    · have hB : containsB w sc1alias = false := by
        by_contra hB'
        simp at hB'
        exact hcond1 (by simp [hA, hB'])
      have hBw : ¬ sc1alias <:+: w := by
        intro hocc
        rw [← containsB_iff] at hocc
        rw [hB] at hocc
        exact Bool.false_ne_true hocc
      have hBy : ¬ sc1alias <:+: Y := by
        by_cases hcond2 : (containsB Z sc2pat && containsB Z sc2alias) = true
        · have hyeq : Y = replaceAll sc2pat sc2rep Z := by
            rw [hY]
            unfold fixStep2
            rw [if_pos hcond2]
          rw [hyeq, hzeq]
          exact replaceAll_no_new_id sc2rep sc1alias (by decide) (by decide) (by decide)
            (by decide) (by decide) (by decide) w hBw
        · have hyeq : Y = Z := by
            rw [hY]
            unfold fixStep2
            rw [if_neg hcond2]
          rw [hyeq, hzeq]
          exact hBw
      have hcb : containsB Y sc1alias = false := by
        rw [← Bool.not_eq_true, containsB_iff]
        exact hBy
      unfold fixStep1
      rw [if_neg (by simp [hcb])]
    · have hAw : ¬ sc1pat <:+: w := by
        intro hocc
        exact hA ((containsB_iff _ _).mpr hocc)
      have hAy : ¬ sc1pat <:+: Y := by
        by_cases hcond2 : (containsB Z sc2pat && containsB Z sc2alias) = true
        · have hyeq : Y = replaceAll sc2pat sc2rep Z := by
            rw [hY]
            unfold fixStep2
            rw [if_pos hcond2]
          rw [hyeq, hzeq]
          exact replaceAll_no_new_id sc2rep sc1pat (by decide) (by decide) (by decide)
            (by decide) (by decide) (by decide) w hAw
        · have hyeq : Y = Z := by
            rw [hY]
            unfold fixStep2
            rw [if_neg hcond2]
          rw [hyeq, hzeq]
          exact hAw
      have hcb : containsB Y sc1pat = false := by
        rw [← Bool.not_eq_true, containsB_iff]
        exact hAy
      unfold fixStep1
      rw [if_neg (by simp [hcb])]

/-- The whole scoping fix is idempotent. -/
theorem fix_scoping_idem (w : List Char) :
    fix_cypher_scoping (fix_cypher_scoping w) = fix_cypher_scoping w := by
  show fixStep2 (fixStep1 (fixStep2 (fixStep1 w))) = fixStep2 (fixStep1 w)
  rw [fixStep1_after_fix w, fixStep2_idem (fixStep1 w)]

/-! ## Claims C6 and C10 -/

/-- C6 counterexample: the Response Sanitizer is NOT idempotent on every
input. On the input ";\n;" the first pass yields ";" (the per-line filter
keeps both one-character lines, and the trailing `rstrip(';')` only removes
the final semicolon after the join), while the second pass yields "", so
running the Sanitizer twice differs from running it once. -/
theorem C6_counterexample :
    clean_cypher_response (clean_cypher_response (S (";\n;"))) ≠
      clean_cypher_response (S (";\n;")) := by
  decide

/-- C6 (amended): the Response Sanitizer is idempotent on every input whose
sanitized output does not end with a semicolon: for such inputs, applying the
Sanitizer to its own output yields that output unchanged. (Full idempotence
fails only through the trailing `rstrip(';')`, as the counterexample ";\n;"
shows.) -/
theorem C6_amended (x : List Char)
    (h : (clean_cypher_response x).getLast? ≠ some semic) :
    clean_cypher_response (clean_cypher_response x) = clean_cypher_response x := by
  have hgoodL := collect_good x
  have hcc : cleanCore x = joinNl (endTrim (collectLines (splitNl (removeFences x)))) :=
    endTrim_spec _ (fun l hl => ⟨(hgoodL l hl).1, (hgoodL l hl).2.1⟩)
  have hgoodE := endTrim_good _ hgoodL
  by_cases hne : endTrim (collectLines (splitNl (removeFences x))) = []
  · have hy : clean_cypher_response x = [] := by
      show fix_cypher_scoping (cleanCore x) = []
      rw [hcc, hne]
      decide
    rw [hy]
    decide
  · obtain ⟨E2, h2, hne2, hg2⟩ := fix_scoping_joinNl _ hne hgoodE
    have hy : clean_cypher_response x = joinNl E2 := by
      show fix_cypher_scoping (cleanCore x) = joinNl E2
      rw [hcc]
      exact h2
    rw [hy] at h
    rw [hy]
    show fix_cypher_scoping (cleanCore (joinNl E2)) = joinNl E2
    rw [cleanCore_id_of_good E2 hne2 hg2 h, ← h2]
    exact fix_scoping_idem _

/-- C6 amended-claim witness: a concrete fenced input whose sanitized output
does not end with a semicolon, on which the Sanitizer is idempotent. -/
theorem C6_amended_witness :
    (clean_cypher_response (S ("```cypher\nMATCH (n)\nRETURN n;\n```"))).getLast? ≠
        some semic ∧
      clean_cypher_response
        (clean_cypher_response (S ("```cypher\nMATCH (n)\nRETURN n;\n```"))) =
      clean_cypher_response (S ("```cypher\nMATCH (n)\nRETURN n;\n```")) :=
  ⟨by decide, C6_amended (S ("```cypher\nMATCH (n)\nRETURN n;\n```")) (by decide)⟩

/-- C10: for every input string, the Response Sanitizer's output is either
empty or has no blank line anywhere — leading or interior — and no line
beginning with the comment marker "//": every line of the output (split at
newlines) is nonempty and does not start with "//". -/
theorem C10_no_blank_or_comment (x : List Char) :
    clean_cypher_response x = [] ∨
      ∀ l ∈ splitNl (clean_cypher_response x), l ≠ [] ∧ ¬ slashSlash <+: l := by
  have hgoodL := collect_good x
  have hcc : cleanCore x = joinNl (endTrim (collectLines (splitNl (removeFences x)))) :=
    endTrim_spec _ (fun l hl => ⟨(hgoodL l hl).1, (hgoodL l hl).2.1⟩)
  have hgoodE := endTrim_good _ hgoodL
  by_cases hne : endTrim (collectLines (splitNl (removeFences x))) = []
  · left
    show fix_cypher_scoping (cleanCore x) = []
    rw [hcc, hne]
    decide
  · right
    obtain ⟨E2, h2, hne2, hg2⟩ := fix_scoping_joinNl _ hne hgoodE
    have hy : clean_cypher_response x = joinNl E2 := by
      show fix_cypher_scoping (cleanCore x) = joinNl E2
      rw [hcc]
      exact h2
    rw [hy, splitNl_joinNl E2 hne2 (fun l hl => (hg2 l hl).2.2.2.2.1)]
    intro l hl
    exact ⟨(hg2 l hl).2.1, (hg2 l hl).2.2.1⟩

end CareerGuidance
